import Mathlib

/-!
Verification of the eadb columnar storage engine (src/src/main.rs, src/src/page.rs).

Shallow embedding conventions:
* machine bytes are `Nat` values (each `< 256` where produced by the code);
* `i64` values are `Int` with explicit two's-complement reduction modulo `2^64`;
* `f64` values are represented by their 64-bit IEEE-754 bit patterns (`Nat`),
  since the code only ever moves their bytes (`write_f64` / `read_f64`);
* Rust strings are represented by their UTF-8 byte lists (`List Nat`) — the
  code concatenates and re-slices those bytes at stored offsets, and UTF-8
  validity is a type-level invariant of Rust `&str` inputs;
* a Rust panic (failed `assert!`, out-of-bounds `Vec` index, failed `unwrap`)
  is the outer `none` of an `Option` result;
* files are byte lists; the snap streaming compressor is abstracted as a
  `compress`/`decompress` function pair (assumed mutually inverse where a
  round-trip theorem needs it).
-/

namespace Eadb

/-- Column type tag (`enum Type`, main.rs lines 17-23). -/
inductive Ty
  | bool
  | int
  | float
  | string
deriving DecidableEq

/-- Min/max pair (`struct Bound<T>`, main.rs lines 26-29). -/
structure Bound (α : Type) where
  min : α
  max : α
deriving DecidableEq

/-- Unpopulated per-page statistics (`struct PageStats`, main.rs lines 153-159).
    Float bounds are bit patterns, string bounds are byte lists. -/
structure PageStats where
  contains_nulls : Bool
  int_bound : Option (Bound Nat)
  float_bound : Option (Bound Nat)
  string_bound : Option (Bound (List Nat))
deriving DecidableEq

/-- Default `PageStats` (all-empty, `PageStats::default()`). -/
def PageStats.default : PageStats :=
  { contains_nulls := false, int_bound := none, float_bound := none, string_bound := none }

/-- Decoded page body (`struct PageData`, main.rs lines 31-36). `nulls` is the
    null bitmap as a list of bits in row order; `bytes` holds the value buffer;
    `offsets` is the string offset table. -/
structure PageData where
  bytes : List Nat
  nulls : List Bool
  offsets : List Nat
  typ : Ty
deriving DecidableEq

/-- Value of a byte whose bits, LSB first, are `bs` (bitvec `LittleEndian`
    cursor: bit index 0 is the least significant bit). -/
def byteOfBits (bs : List Bool) : Nat :=
  bs.foldr (fun b acc => cond b 1 0 + 2 * acc) 0

/-- Fuel-indexed byte packing (structural recursion on the fuel so the kernel
    can evaluate it; the fuel is always instantiated with the list length,
    which bounds the number of 8-bit chunks). -/
def bitsToBytesF : Nat → List Bool → List Nat
  | 0, _ => []
  | fuel + 1, l => if l = [] then [] else byteOfBits (l.take 8) :: bitsToBytesF fuel (l.drop 8)

/-- Pack a bit list into bytes, 8 bits per byte LSB-first, the final byte
    zero-padded (`BitVec::as_slice` of a bitvec `LittleEndian, u8` vector). -/
def bitsToBytes (l : List Bool) : List Nat :=
  bitsToBytesF l.length l

/-- Bits of one byte, LSB first. -/
def bitsOfByte (b : Nat) : List Bool :=
  (List.range 8).map b.testBit

/-- Expand a byte list into its bits, 8 per byte LSB-first
    (`BitVec::<LittleEndian, u8>::from_slice`; the result always has
    `8 * bytes.len()` bits). -/
def bytesToBits (l : List Nat) : List Bool :=
  (l.map bitsOfByte).flatten

/-- Little-endian byte encoding of the low `k` bytes of `n`
    (`byteorder::LittleEndian::write_u64` when `k = 8`). -/
def toLE : Nat → Nat → List Nat
  | 0, _ => []
  | k + 1, n => n % 256 :: toLE k (n / 256)

/-- Little-endian byte decoding (`byteorder::LittleEndian::read_u64`). -/
def fromLE : List Nat → Nat
  | [] => 0
  | b :: t => b + 256 * fromLE t

/-- Two's-complement unsigned image of an `i64` value. -/
def i64ToNat (v : Int) : Nat :=
  (v % (2 ^ 64 : Int)).toNat

/-- Signed reading of a 64-bit unsigned value (two's complement). -/
def natToI64 (u : Nat) : Int :=
  if u < 2 ^ 63 then (u : Int) else (u : Int) - 2 ^ 64

/-- Little-endian two's-complement encoding of an `i64` (`write_i64`). -/
def encI64 (v : Int) : List Nat :=
  toLE 8 (i64ToNat v)

/-- Little-endian two's-complement decoding of an `i64` (`read_i64`). -/
def decI64 (bs : List Nat) : Int :=
  natToI64 (fromLE bs)

/-- Rust slice access `bytes.get(idx*8..(idx+1)*8)`: `some` exactly when the
    whole 8-byte word is in range. -/
def slice8 (bytes : List Nat) (idx : Nat) : Option (List Nat) :=
  if (idx + 1) * 8 ≤ bytes.length then some ((bytes.drop (idx * 8)).take 8) else none

/-- Rust slice access `bytes.get(a..b)`: `some` exactly when `a ≤ b ≤ len`. -/
def sliceRange (bytes : List Nat) (a b : Nat) : Option (List Nat) :=
  if a ≤ b ∧ b ≤ bytes.length then some ((bytes.drop a).take (b - a)) else none

/-- Cumulative offsets built by `PageData::from_strings` (push current offset
    per row, then push the final total). -/
def prefixSums : List Nat → List Nat
  | [] => [0]
  | x :: t => 0 :: (prefixSums t).map (x + ·)

/-- PageData::from_bools (main.rs lines 39-53). The `io::Result` is always
    `Ok` (writing to an in-memory vector cannot fail), so it is omitted. -/
def PageData.from_bools (data : List (Option Bool)) : PageData :=
  { bytes := bitsToBytes (data.map (fun e => e.getD false))
  , nulls := data.map Option.isNone
  , offsets := []
  , typ := Ty.bool }

/-- PageData::from_ints (main.rs lines 55-69): each row is the 8-byte
    little-endian two's-complement image of the value, `0` for null rows. -/
def PageData.from_ints (data : List (Option Int)) : PageData :=
  { bytes := (data.map (fun e => encI64 (e.getD 0))).flatten
  , nulls := data.map Option.isNone
  , offsets := []
  , typ := Ty.int }

/-- PageData::from_floats (main.rs lines 71-84): each row is the 8-byte
    little-endian image of the value's IEEE-754 bit pattern, `0.0` (pattern 0)
    for null rows. -/
def PageData.from_floats (data : List (Option Nat)) : PageData :=
  { bytes := (data.map (fun e => toLE 8 (e.getD 0))).flatten
  , nulls := data.map Option.isNone
  , offsets := []
  , typ := Ty.float }

/-- PageData::from_strings (main.rs lines 86-107): concatenated UTF-8 bytes
    (empty slice for null rows) plus the cumulative offset table. -/
def PageData.from_strings (data : List (Option (List Nat))) : PageData :=
  { bytes := (data.map (fun e => e.getD [])).flatten
  , nulls := data.map Option.isNone
  , offsets := prefixSums (data.map (fun e => (e.getD []).length))
  , typ := Ty.string }

/-- PageData::len (main.rs lines 109-111). -/
def PageData.len (d : PageData) : Nat :=
  d.nulls.length

/-- PageData::get_bool (main.rs lines 113-120). Outer `none` models the panic
    of indexing the null bitmap out of range; the non-null branch rebuilds the
    bit vector from the byte buffer and returns `bits.get(idx)` as a value. -/
def PageData.get_bool (d : PageData) (idx : Nat) : Option (Option Bool) :=
  match d.nulls.get? idx with
  | none => none
  | some true => some none
  | some false => some ((bytesToBits d.bytes).get? idx)

/-- PageData::get_int (main.rs lines 122-129). Outer `none` models a panic
    (null-bitmap index out of range, or `bytes.get(..).unwrap()` failing). -/
def PageData.get_int (d : PageData) (idx : Nat) : Option (Option Int) :=
  match d.nulls.get? idx with
  | none => none
  | some true => some none
  | some false =>
    match slice8 d.bytes idx with
    | none => none
    | some s => some (some (decI64 s))

/-- PageData::get_float (main.rs lines 131-138); the decoded value is the
    64-bit IEEE-754 bit pattern read little-endian. -/
def PageData.get_float (d : PageData) (idx : Nat) : Option (Option Nat) :=
  match d.nulls.get? idx with
  | none => none
  | some true => some none
  | some false =>
    match slice8 d.bytes idx with
    | none => none
    | some s => some (some (fromLE s))

/-- PageData::get_string (main.rs lines 140-150). Outer `none` models a panic
    (null-bitmap or offset-table index out of range, or an invalid slice
    range). The sliced bytes are returned directly; `String::from_utf8` is the
    identity on the byte content. -/
def PageData.get_string (d : PageData) (idx : Nat) : Option (Option (List Nat)) :=
  match d.nulls.get? idx with
  | none => none
  | some true => some none
  | some false =>
    match d.offsets.get? idx, d.offsets.get? (idx + 1) with
    | some a, some b =>
      match sliceRange d.bytes a b with
      | none => none
      | some s => some (some s)
    | _, _ => none

/-- Page placement metadata (`struct PageMeta`, main.rs lines 161-169). The
    `Uuid` id and the file path are modeled as abstract `Nat` identifiers. -/
structure PageMeta where
  id : Nat
  offset : Nat
  path : Nat
  size : Nat
  stats : PageStats
  typ : Ty
deriving DecidableEq

/-- Reading `k` bytes of a file into a zero-initialized buffer of length `k`
    (`file.read(&mut buf)` fills what is available, the rest stays zero);
    returns the buffer and the remaining file bytes. -/
def readN (k : Nat) (file : List Nat) : List Nat × List Nat :=
  (file.take k ++ List.replicate (k - file.length) 0, file.drop k)

/-- Fuel-indexed chunking (structural recursion on the fuel, instantiated
    with the list length, which bounds the number of chunks). -/
def chunks8F : Nat → List Nat → List (List Nat)
  | 0, _ => []
  | fuel + 1, l => if l = [] then [] else l.take 8 :: chunks8F fuel (l.drop 8)

/-- Byte chunks of size 8 (`offset_bytes.chunks(8)`; a final short chunk is
    kept as-is, matching Rust `chunks`). -/
def chunks8 (l : List Nat) : List (List Nat) :=
  chunks8F l.length l

/-- PageMeta::load_page (main.rs lines 183-215), applied to the file contents:
    read the 8-byte null-bitmap byte length, then that many bitmap bytes, then
    (for String pages only) `(meta.size + 1) * 8` offset-table bytes, then
    decompress the remainder into the value buffer. `decompress` abstracts the
    snap reader. -/
def PageMeta.load_page (decompress : List Nat → List Nat) (meta : PageMeta)
    (file : List Nat) : PageData :=
  let r0 := readN 8 file
  let size := fromLE r0.1
  let r1 := readN size r0.2
  let nulls := bytesToBits r1.1
  let r2 :=
    if meta.typ = Ty.string then
      let ro := readN ((meta.size + 1) * 8) r1.2
      ((chunks8 ro.1).map fromLE, ro.2)
    else ([], r1.2)
  { bytes := decompress r2.2, nulls := nulls, offsets := r2.1, typ := meta.typ }

/-- Cache key `(Uuid, usize)` (main.rs line 218), uuid modeled as `Nat`. -/
def PageKey : Type := Nat × Nat
deriving instance DecidableEq for PageKey

/-- Decoded page plus its metadata (`struct Page`, main.rs lines 220-223). -/
structure Page where
  data : PageData
  meta : PageMeta
deriving DecidableEq

/-- Page::get_bool (main.rs lines 226-229): the `assert!` on the type tag is
    the outer `none` (panic) when it fails. -/
def Page.get_bool (p : Page) (idx : Nat) : Option (Option Bool) :=
  if p.meta.typ = Ty.bool then p.data.get_bool idx else none

/-- Page::get_int (main.rs lines 231-234). -/
def Page.get_int (p : Page) (idx : Nat) : Option (Option Int) :=
  if p.meta.typ = Ty.int then p.data.get_int idx else none

/-- Page::get_float (main.rs lines 236-239). -/
def Page.get_float (p : Page) (idx : Nat) : Option (Option Nat) :=
  if p.meta.typ = Ty.float then p.data.get_float idx else none

/-- Page::get_string (main.rs lines 241-244). -/
def Page.get_string (p : Page) (idx : Nat) : Option (Option (List Nat)) :=
  if p.meta.typ = Ty.string then p.data.get_string idx else none

/-- PageWriter::write_nulls (main.rs lines 500-510): 8-byte little-endian
    byte-length header followed by the bitmap bytes. -/
def PageWriter.write_nulls (d : PageData) : List Nat :=
  toLE 8 (bitsToBytes d.nulls).length ++ bitsToBytes d.nulls

/-- PageWriter::write_offsets (main.rs lines 512-519): each offset as an
    8-byte little-endian word (empty for non-String pages, whose offset table
    is empty). -/
def PageWriter.write_offsets (d : PageData) : List Nat :=
  (d.offsets.map (toLE 8)).flatten

/-- PageWriter::write (main.rs lines 487-498): creates the meta (fresh id is
    a parameter) and produces the file bytes — null header and bitmap, offset
    table, then the compressed value buffer. -/
def PageWriter.write (compress : List Nat → List Nat) (id path offset : Nat)
    (d : PageData) : PageMeta × List Nat :=
  ({ id := id, offset := offset, path := path, size := d.len
   , stats := PageStats.default, typ := d.typ },
   PageWriter.write_nulls d ++ PageWriter.write_offsets d ++ compress d.bytes)

/-- PageCache capacity (`PageCache::SIZE`, main.rs line 261). -/
def PageCache.SIZE : Nat := 256

/-- Bounded LRU page cache (`struct PageCache`, main.rs lines 256-258),
    modeled as an association list in most-recently-used-first order plus the
    capacity. -/
structure PageCache where
  pages : List (PageKey × Page)
  cap : Nat

/-- PageCache::new (main.rs lines 263-267): empty, capacity `SIZE`. -/
def PageCache.new : PageCache :=
  { pages := [], cap := PageCache.SIZE }

/-- LruCache::contains — membership test that does not update recency. -/
def lruContains (l : List (PageKey × Page)) (k : PageKey) : Bool :=
  l.any (fun e => e.1 = k)

/-- LruCache::peek-style lookup (no reordering), used to model the value the
    cache holds for a key. -/
def lruGet (l : List (PageKey × Page)) (k : PageKey) : Option Page :=
  (l.find? (fun e => e.1 = k)).map (fun e => e.2)

/-- Recency update performed by LruCache::get on a hit: the entry moves to
    the front (most recently used). -/
def lruTouch (l : List (PageKey × Page)) (k : PageKey) : List (PageKey × Page) :=
  match l.find? (fun e => e.1 = k) with
  | none => l
  | some e => e :: l.filter (fun x => ¬ x.1 = k)

/-- LruCache::put for a key not present: insert at the front, evicting the
    least-recently-used (last) entry when the cache is at capacity. -/
def lruPut (l : List (PageKey × Page)) (cap : Nat) (k : PageKey) (p : Page) :
    List (PageKey × Page) :=
  if lruContains l k then (k, p) :: l.filter (fun x => ¬ x.1 = k)
  else if l.length < cap then (k, p) :: l
  else (k, p) :: l.dropLast

/-- PageCache::get (main.rs lines 269-275) with an infallible page loader
    `load` standing for `meta.load_page()` on the file system. The middle
    `Bool` records whether this call performed a load (a cache miss) — the
    observable the spec's load-counter test reads. On a hit the entry is
    marked most recently used by the inner `LruCache::get`. -/
def PageCache.get (load : PageMeta → PageData) (c : PageCache) (key : PageKey)
    (meta : PageMeta) : Page × Bool × PageCache :=
  match lruGet c.pages key with
  | some p => (p, false, { c with pages := lruTouch c.pages key })
  | none =>
    let page : Page := { data := load meta, meta := meta }
    (page, true, { c with pages := lruPut c.pages c.cap key page })

/-- Load error taxonomy at the file-format layer (spec section 7). -/
inductive LoadError
  | ioError
  | corruptPage
deriving DecidableEq

/-- PageCache::get (main.rs lines 269-275) with a fallible loader: on a miss
    `meta.load_page()?` propagates the error before anything is inserted; on
    a hit the loader is never called. -/
def PageCache.getE (load : PageMeta → Except LoadError PageData) (c : PageCache)
    (key : PageKey) (meta : PageMeta) : Except LoadError Page × PageCache :=
  match lruGet c.pages key with
  | some p => (Except.ok p, { c with pages := lruTouch c.pages key })
  | none =>
    match load meta with
    | Except.error e => (Except.error e, c)
    | Except.ok d =>
      let page : Page := { data := d, meta := meta }
      (Except.ok page, { c with pages := lruPut c.pages c.cap key page })

/-- Ordered same-typed page group (`struct Collection`, main.rs lines
    278-283). The `BTreeMap<(id, page_idx), PageMeta>` is the metadata list in
    page-index order (all keys share the collection id, so `BTreeMap`
    iteration order is page-index order). -/
structure Collection where
  id : Nat
  page_metas : List PageMeta
  size : Nat
  typ : Ty
deriving DecidableEq

/-- Collection::new (main.rs lines 286-310): the type-uniqueness `assert!`
    (exactly one distinct page type) is modeled as `none` on failure; `size`
    is the sum of the declared page sizes. -/
def Collection.new (id : Nat) (metas : List PageMeta) : Option Collection :=
  match (metas.map (fun m => m.typ)).dedup with
  | [t] => some { id := id, page_metas := metas
                , size := (metas.map (fun m => m.size)).sum, typ := t }
  | _ => none

/-- Scan loop of Collection::find_page (main.rs lines 348-361) over the metas
    from page index `k` on: a page's start offset is `page_index * meta.size`;
    on the covering page the cache is consulted (possibly loading). A load
    failure would panic (`.expect`), which cannot happen with the infallible
    loader used here. -/
def findFrom (load : PageMeta → PageData) (cache : PageCache) (id idx : Nat) :
    Nat → List PageMeta → Option (Page × Nat) × PageCache
  | _, [] => (none, cache)
  | k, m :: rest =>
    if k * m.size ≤ idx ∧ idx < k * m.size + m.size then
      (some ((PageCache.get load cache (id, k) m).1, k * m.size),
       (PageCache.get load cache (id, k) m).2.2)
    else findFrom load cache id idx (k + 1) rest

/-- Collection::find_page (main.rs lines 348-361): `none` when no page covers
    the index (the loop falls through). -/
def Collection.find_page (load : PageMeta → PageData) (c : Collection)
    (cache : PageCache) (idx : Nat) : Option (Page × Nat) × PageCache :=
  findFrom load cache c.id idx 0 c.page_metas

/-- Shared shape of Collection::get_bool/get_int/get_float/get_string
    (main.rs lines 312-330): resolve the page, then read at the local index;
    when no page covers the index `and_then` yields the plain value `None`
    (inner), with no error. -/
def Collection.getWith {α : Type} (pget : Page → Nat → Option (Option α))
    (load : PageMeta → PageData) (c : Collection) (cache : PageCache)
    (idx : Nat) : Option (Option α) × PageCache :=
  match Collection.find_page load c cache idx with
  | (none, cache2) => (some none, cache2)
  | (some po, cache2) => (pget po.1 (idx - po.2), cache2)

/-- Collection::get_bool (main.rs lines 312-315). -/
def Collection.get_bool (load : PageMeta → PageData) (c : Collection)
    (cache : PageCache) (idx : Nat) : Option (Option Bool) × PageCache :=
  Collection.getWith Page.get_bool load c cache idx

/-- Collection::get_int (main.rs lines 317-320). -/
def Collection.get_int (load : PageMeta → PageData) (c : Collection)
    (cache : PageCache) (idx : Nat) : Option (Option Int) × PageCache :=
  Collection.getWith Page.get_int load c cache idx

/-- Collection::get_float (main.rs lines 322-325). -/
def Collection.get_float (load : PageMeta → PageData) (c : Collection)
    (cache : PageCache) (idx : Nat) : Option (Option Nat) × PageCache :=
  Collection.getWith Page.get_float load c cache idx

/-- Collection::get_string (main.rs lines 327-330). -/
def Collection.get_string (load : PageMeta → PageData) (c : Collection)
    (cache : PageCache) (idx : Nat) : Option (Option (List Nat)) × PageCache :=
  Collection.getWith Page.get_string load c cache idx

/-- Cursor state shared by CollectionBoolIter / CollectionIntIter /
    CollectionFloatIter / CollectionStringIter (main.rs lines 364-482): the
    four Rust iterator structs are textually identical apart from the element
    getter, so they share one model; the borrowed cache and collection are
    passed to each step. -/
structure CollectionIter where
  idx : Nat
deriving DecidableEq

/-- Fresh iterator as built by the `new` constructors (cursor at 0). -/
def CollectionIter.new : CollectionIter :=
  { idx := 0 }

/-- One `next` step (main.rs lines 380-392 / 410-422 / 440-452 / 470-482)
    over an arbitrary getter: `some none` is iterator exhaustion
    (`idx == collection.size`), `some (some v)` yields the element, outer
    `none` is a panic inside the getter. -/
def CollectionIter.nextWith {α : Type}
    (get1 : PageCache → Nat → Option (Option α) × PageCache) (size : Nat)
    (it : CollectionIter) (cache : PageCache) :
    Option (Option (Option α)) × CollectionIter × PageCache :=
  if it.idx = size then (some none, it, cache)
  else
    let r := get1 cache it.idx
    match r.1 with
    | none => (none, it, r.2)
    | some v => (some (some v), { idx := it.idx + 1 }, r.2)

/-- CollectionIntIter::next (main.rs lines 410-422). -/
def CollectionIter.nextInt (load : PageMeta → PageData) (c : Collection)
    (it : CollectionIter) (cache : PageCache) :
    Option (Option (Option Int)) × CollectionIter × PageCache :=
  CollectionIter.nextWith (Collection.get_int load c) c.size it cache

/-- CollectionBoolIter::next (main.rs lines 380-392). -/
def CollectionIter.nextBool (load : PageMeta → PageData) (c : Collection)
    (it : CollectionIter) (cache : PageCache) :
    Option (Option (Option Bool)) × CollectionIter × PageCache :=
  CollectionIter.nextWith (Collection.get_bool load c) c.size it cache

/-- CollectionFloatIter::next (main.rs lines 440-452). -/
def CollectionIter.nextFloat (load : PageMeta → PageData) (c : Collection)
    (it : CollectionIter) (cache : PageCache) :
    Option (Option (Option Nat)) × CollectionIter × PageCache :=
  CollectionIter.nextWith (Collection.get_float load c) c.size it cache

/-- CollectionStringIter::next (main.rs lines 470-482). -/
def CollectionIter.nextString (load : PageMeta → PageData) (c : Collection)
    (it : CollectionIter) (cache : PageCache) :
    Option (Option (Option (List Nat))) × CollectionIter × PageCache :=
  CollectionIter.nextWith (Collection.get_string load c) c.size it cache

/-- Driving an iterator for `n` steps, collecting the raw `next` outputs
    (a full Rust `for` loop over the iterator corresponds to driving it until
    the first `some none`). -/
def runWith {α : Type} (get1 : PageCache → Nat → Option (Option α) × PageCache)
    (size : Nat) : Nat → CollectionIter → PageCache →
    List (Option (Option (Option α))) × CollectionIter × PageCache
  | 0, it, cache => ([], it, cache)
  | n + 1, it, cache =>
    let r := CollectionIter.nextWith get1 size it cache
    let rest := runWith get1 size n r.2.1 r.2.2
    (r.1 :: rest.1, rest.2.1, rest.2.2)

/-- Pure twin of the `find_page` scan: the first page (with its index) whose
    range `page_index * size .. page_index * size + size` covers `idx`. -/
def findMetaFrom (idx : Nat) : Nat → List PageMeta → Option (Nat × PageMeta)
  | _, [] => none
  | k, m :: rest =>
    if k * m.size ≤ idx ∧ idx < k * m.size + m.size then some (k, m)
    else findMetaFrom idx (k + 1) rest

/-- Pure twin of Collection::find_page, ignoring the cache. -/
def Collection.findMeta (c : Collection) (idx : Nat) : Option (Nat × PageMeta) :=
  findMetaFrom idx 0 c.page_metas

/-- Cache-independent value of `Collection.getWith`: what a get returns when
    every cache lookup is answered by the loader. -/
def Collection.atWith {α : Type} (pget : Page → Nat → Option (Option α))
    (load : PageMeta → PageData) (c : Collection) (idx : Nat) :
    Option (Option α) :=
  match Collection.findMeta c idx with
  | none => some none
  | some km => pget { data := load km.2, meta := km.2 } (idx - km.1 * km.2.size)

/-- Cache-independent value of Collection::get_int. -/
def Collection.atInt (load : PageMeta → PageData) (c : Collection) (idx : Nat) :
    Option (Option Int) :=
  Collection.atWith Page.get_int load c idx

/-- Cache-independent value of Collection::get_bool. -/
def Collection.atBool (load : PageMeta → PageData) (c : Collection) (idx : Nat) :
    Option (Option Bool) :=
  Collection.atWith Page.get_bool load c idx

/-- Cache-independent value of Collection::get_float. -/
def Collection.atFloat (load : PageMeta → PageData) (c : Collection) (idx : Nat) :
    Option (Option Nat) :=
  Collection.atWith Page.get_float load c idx

/-- Cache-independent value of Collection::get_string. -/
def Collection.atString (load : PageMeta → PageData) (c : Collection) (idx : Nat) :
    Option (Option (List Nat)) :=
  Collection.atWith Page.get_string load c idx

/-- Cache coherence with respect to a collection and a loader: every cached
    entry keyed by the collection's id holds exactly the page the loader
    produces for the meta at that page index. The empty cache is coherent;
    `PageCache.get` preserves coherence. -/
def Coherent (load : PageMeta → PageData) (c : Collection) (cache : PageCache) :
    Prop :=
  ∀ e ∈ cache.pages, e.1.1 = c.id →
    ∃ m, c.page_metas.get? e.1.2 = some m ∧ e.2 = { data := load m, meta := m }

/-- Rows of one page as seen through a page accessor, in local order
    (`page.get_T j` for `j` below the declared size). -/
def pageRows {α : Type} (pget : Page → Nat → Option (Option α))
    (load : PageMeta → PageData) (m : PageMeta) : List (Option (Option α)) :=
  (List.range m.size).map (fun j => pget { data := load m, meta := m } j)

/-- Concatenation, in page-index order, of all the pages' rows. -/
def Collection.rowsWith {α : Type} (pget : Page → Nat → Option (Option α))
    (load : PageMeta → PageData) (c : Collection) : List (Option (Option α)) :=
  (c.page_metas.map (pageRows pget load)).flatten

theorem toLE_length (k n : Nat) : (toLE k n).length = k := by
  induction k generalizing n with
  | zero => rfl
  | succ k ih => simp [toLE, ih]

theorem fromLE_toLE (k n : Nat) : fromLE (toLE k n) = n % 256 ^ k := by
  induction k generalizing n with
  | zero => simp [toLE, fromLE, Nat.mod_one]
  | succ k ih =>
    have h : (256 : Nat) ^ (k + 1) = 256 * 256 ^ k := by ring
    rw [toLE, fromLE, ih, h, Nat.mod_mul]

theorem byteOfBits_cons (b : Bool) (t : List Bool) :
    byteOfBits (b :: t) = cond b 1 0 + 2 * byteOfBits t := rfl

theorem byteOfBits_lt (bs : List Bool) : byteOfBits bs < 2 ^ bs.length := by
  induction bs with
  | nil => simp [byteOfBits]
  | cons b t ih =>
    rw [byteOfBits_cons]
    have h : (2 : Nat) ^ (b :: t).length = 2 * 2 ^ t.length := by
      rw [List.length_cons, pow_succ]; ring
    rw [h]
    have hb : cond b 1 0 ≤ 1 := by cases b <;> decide
    omega

theorem testBit_byteOfBits (bs : List Bool) (k : Nat) :
    (byteOfBits bs).testBit k = bs.getD k false := by
  induction bs generalizing k with
  | nil => simp [byteOfBits, Nat.zero_testBit]
  | cons b t ih =>
    cases k with
    | zero =>
      rw [byteOfBits_cons, Nat.testBit_zero]
      cases b <;> simp [Nat.add_mul_mod_self_left, Nat.mul_mod_right]
    | succ k =>
      rw [byteOfBits_cons, Nat.testBit_succ]
      have h : (cond b 1 0 + 2 * byteOfBits t) / 2 = byteOfBits t := by
        cases b <;> simp <;> omega
      rw [h, ih]
      rfl

theorem bitsOfByte_length (b : Nat) : (bitsOfByte b).length = 8 := by
  simp [bitsOfByte]

theorem bitsOfByte_byteOfBits (bs : List Bool) (h : bs.length ≤ 8) :
    bitsOfByte (byteOfBits bs) = bs ++ List.replicate (8 - bs.length) false := by
  apply List.ext_get?
  intro i
  by_cases hi : i < 8
  · rw [bitsOfByte]
    rw [List.get?_map, List.get?_range hi]
    simp only [Option.map_some']
    rw [testBit_byteOfBits]
    by_cases hib : i < bs.length
    · rw [List.get?_append hib, List.getD_eq_get?]
      cases hg : bs.get? i with
      | none => exact absurd (List.get?_eq_none.mp hg) (by omega)
      | some v => simp [hg]
    · rw [List.get?_append_right (by omega)]
      rw [List.getD_eq_get?, List.get?_eq_none.mpr (by omega)]
      have hrep : i - bs.length < 8 - bs.length := by omega
      simp [List.get?_eq_getElem?, List.getElem?_replicate, if_pos hrep]
  · have h1 : (bitsOfByte (byteOfBits bs)).length ≤ i := by
      rw [bitsOfByte_length]; omega
    have h2 : (bs ++ List.replicate (8 - bs.length) false).length ≤ i := by
      simp [List.length_append, List.length_replicate]; omega
    rw [List.get?_eq_none.mpr h1, List.get?_eq_none.mpr h2]

theorem bytesToBits_nil : bytesToBits [] = [] := rfl

theorem bytesToBits_cons (b : Nat) (t : List Nat) :
    bytesToBits (b :: t) = bitsOfByte b ++ bytesToBits t := by
  simp [bytesToBits]

theorem bytesToBits_length (l : List Nat) : (bytesToBits l).length = 8 * l.length := by
  induction l with
  | nil => rfl
  | cons b t ih =>
    rw [bytesToBits_cons, List.length_append, bitsOfByte_length, ih,
      List.length_cons]
    ring

theorem bitsToBytes_nil : bitsToBytes [] = [] := rfl

theorem bytesToBits_bitsToBytesF : ∀ (n : Nat) (l : List Bool), l.length ≤ n →
    bytesToBits (bitsToBytesF n l) =
      l ++ List.replicate (8 * ((l.length + 7) / 8) - l.length) false := by
  intro n
  induction n with
  | zero =>
    intro l hl
    have h0 : l = [] := by cases l <;> simp_all
    subst h0
    simp [bitsToBytesF, bytesToBits_nil]
  | succ n ih =>
    intro l hl
    by_cases h0 : l = []
    · subst h0; simp [bitsToBytesF, bytesToBits_nil]
    · rw [bitsToBytesF, if_neg h0, bytesToBits_cons]
      have hlen : 0 < l.length := List.length_pos.mpr h0
      have hdrop : (l.drop 8).length ≤ n := by
        rw [List.length_drop]; omega
      rw [ih (l.drop 8) hdrop]
      rw [bitsOfByte_byteOfBits (l.take 8) (by simp [List.length_take])]
      by_cases h8 : l.length ≤ 8
      · rw [List.take_of_length_le h8, List.drop_eq_nil_of_le h8]
        simp only [List.length_nil, List.nil_append]
        have e1 : (8 : Nat) * ((0 + 7) / 8) - 0 = 0 := by norm_num
        rw [e1, List.replicate_zero, List.append_nil]
        have e2 : 8 - l.length = 8 * ((l.length + 7) / 8) - l.length := by omega
        rw [e2]
      · have htake : (l.take 8).length = 8 := by
          rw [List.length_take]; omega
        rw [htake, Nat.sub_self, List.replicate_zero, List.append_nil,
          List.length_drop, ← List.append_assoc, List.take_append_drop]
        have e2 : 8 * ((l.length - 8 + 7) / 8) - (l.length - 8) =
            8 * ((l.length + 7) / 8) - l.length := by omega
        rw [e2]

theorem bytesToBits_bitsToBytes (l : List Bool) :
    bytesToBits (bitsToBytes l) =
      l ++ List.replicate (8 * ((l.length + 7) / 8) - l.length) false :=
  bytesToBits_bitsToBytesF l.length l le_rfl

theorem bitsToBytes_length (l : List Bool) :
    (bitsToBytes l).length = (l.length + 7) / 8 := by
  have h := congrArg List.length (bytesToBits_bitsToBytes l)
  rw [bytesToBits_length, List.length_append, List.length_replicate] at h
  omega

theorem get?_bytesToBits_bitsToBytes (l : List Bool) (i : Nat) (hi : i < l.length) :
    (bytesToBits (bitsToBytes l)).get? i = l.get? i := by
  rw [bytesToBits_bitsToBytes, List.get?_append hi]

theorem i64ToNat_lt (v : Int) : i64ToNat v < 2 ^ 64 := by
  unfold i64ToNat
  have hpos : (0 : Int) < 2 ^ 64 := by positivity
  have h1 := Int.emod_lt_of_pos v hpos
  have h2 := Int.emod_nonneg v hpos.ne'
  omega

theorem decI64_encI64 (v : Int) (hlo : -(2 ^ 63) ≤ v) (hhi : v < 2 ^ 63) :
    decI64 (encI64 v) = v := by
  unfold decI64 encI64
  rw [fromLE_toLE]
  have hlt := i64ToNat_lt v
  have h256 : (256 : Nat) ^ 8 = 2 ^ 64 := by norm_num
  rw [h256, Nat.mod_eq_of_lt hlt]
  unfold i64ToNat natToI64
  rcases le_or_lt 0 v with hv | hv
  · have hemod : v % (2 ^ 64 : Int) = v := Int.emod_eq_of_lt hv (by omega)
    rw [hemod, if_pos (by omega : v.toNat < 2 ^ 63)]
    omega
  · have h1 : v % (2 : Int) ^ 64 = (v + 2 ^ 64 * 1) % 2 ^ 64 := by
      rw [Int.add_mul_emod_self_left]
    have hemod : v % (2 ^ 64 : Int) = v + 2 ^ 64 := by
      rw [h1]
      apply Int.emod_eq_of_lt <;> omega
    rw [hemod]
    split <;> omega

theorem flatten_length_const {α : Type} (ls : List (List α)) (w : Nat)
    (h : ∀ x ∈ ls, x.length = w) : ls.flatten.length = ls.length * w := by
  induction ls with
  | nil => simp
  | cons x t ih =>
    rw [List.flatten_cons, List.length_append, h x (by simp),
      ih (fun y hy => h y (by simp [hy]))]
    simp [List.length_cons]
    ring

theorem slice8_flatten (ls : List (List Nat)) (h8 : ∀ x ∈ ls, x.length = 8)
    (i : Nat) (hi : i < ls.length) : slice8 ls.flatten i = ls.get? i := by
  induction ls generalizing i with
  | nil => simp at hi
  | cons x t ih =>
    have hx : x.length = 8 := h8 x (by simp)
    have hlen : (x :: t).flatten.length = (t.length + 1) * 8 := by
      rw [flatten_length_const (x :: t) 8 h8]; simp [List.length_cons]
    cases i with
    | zero =>
      rw [slice8, if_pos (by omega)]
      simp only [List.flatten_cons, List.drop_zero, Nat.zero_mul]
      rw [← hx, List.take_left]
      rfl
    | succ i =>
      have hit : i < t.length := by simpa using hi
      rw [slice8]
      have hcond : (i + 1 + 1) * 8 ≤ (x :: t).flatten.length ↔
          (i + 1) * 8 ≤ t.flatten.length := by
        rw [hlen, flatten_length_const t 8 (fun y hy => h8 y (by simp [hy]))]
        omega
      have hdrop : (x :: t).flatten.drop ((i + 1) * 8) = t.flatten.drop (i * 8) := by
        rw [List.flatten_cons]
        have : (i + 1) * 8 = x.length + i * 8 := by omega
        rw [this, List.drop_append]
      rw [hdrop]
      have := ih (fun y hy => h8 y (by simp [hy])) i hit
      rw [slice8] at this
      by_cases hc : (i + 1) * 8 ≤ t.flatten.length
      · rw [if_pos (hcond.mpr hc), if_pos hc] at *
        simpa using this
      · rw [if_neg (fun hh => hc (hcond.mp hh)), if_neg hc] at *
        simpa using this

theorem prefixSums_get? (lens : List Nat) (i : Nat) (hi : i ≤ lens.length) :
    (prefixSums lens).get? i = some ((lens.take i).sum) := by
  induction lens generalizing i with
  | nil =>
    have h0 : i = 0 := by simpa using hi
    subst h0
    simp [prefixSums]
  | cons x t ih =>
    cases i with
    | zero => simp [prefixSums]
    | succ i =>
      have hit : i ≤ t.length := by simpa using hi
      show ((prefixSums t).map (x + ·)).get? i = _
      rw [List.get?_map, ih i hit]
      simp [List.take_succ_cons, List.sum_cons]

theorem sliceRange_append_shift (x r : List Nat) (a b : Nat) :
    sliceRange (x ++ r) (x.length + a) (x.length + b) = sliceRange r a b := by
  unfold sliceRange
  have h1 : (x.length + a ≤ x.length + b ∧ x.length + b ≤ (x ++ r).length) ↔
      (a ≤ b ∧ b ≤ r.length) := by
    rw [List.length_append]
    omega
  rw [List.drop_append]
  have h2 : x.length + b - (x.length + a) = b - a := by omega
  rw [h2]
  by_cases hc : a ≤ b ∧ b ≤ r.length
  · rw [if_pos hc, if_pos (h1.mpr hc)]
  · rw [if_neg hc, if_neg (fun hh => hc (h1.mp hh))]

theorem sliceRange_flatten (ls : List (List Nat)) (i : Nat) (hi : i < ls.length) :
    sliceRange ls.flatten (((ls.map List.length).take i).sum)
      (((ls.map List.length).take (i + 1)).sum) = ls.get? i := by
  induction ls generalizing i with
  | nil => simp at hi
  | cons x t ih =>
    cases i with
    | zero =>
      have ha : (((x :: t).map List.length).take 0).sum = 0 := by simp
      have hb : (((x :: t).map List.length).take 1).sum = x.length := by simp
      rw [ha, hb]
      have hc : 0 ≤ x.length ∧ x.length ≤ (x :: t).flatten.length := by
        refine ⟨Nat.zero_le _, ?h⟩
        rw [List.flatten_cons, List.length_append]
        omega
      rw [sliceRange, if_pos hc, List.flatten_cons, Nat.sub_zero, List.drop_zero,
        List.take_left]
      rfl
    | succ i =>
      have hit : i < t.length := by simpa using hi
      rw [List.map_cons, List.take_succ_cons, List.take_succ_cons, List.sum_cons,
        List.sum_cons, List.flatten_cons, sliceRange_append_shift, ih i hit]
      rfl

/-- C1: for every element type (Bool, Int, Float, String) and every list of
    optional values, encoding with the matching `from_*` constructor and
    decoding position `i` with the matching `get_*` accessor returns exactly
    the i-th input value, for every `i` below the list's length (Int values
    must fit in `i64`, Float bit patterns in 64 bits). -/
theorem C1_codec_roundtrip :
    (∀ (vs : List (Option Bool)) (i : Nat) (h : i < vs.length),
        (PageData.from_bools vs).get_bool i = some (vs.get ⟨i, h⟩)) ∧
    (∀ (vs : List (Option Int)),
        (∀ e ∈ vs, -(2 ^ 63) ≤ e.getD 0 ∧ e.getD 0 < 2 ^ 63) →
        ∀ (i : Nat) (h : i < vs.length),
        (PageData.from_ints vs).get_int i = some (vs.get ⟨i, h⟩)) ∧
    (∀ (vs : List (Option Nat)),
        (∀ e ∈ vs, e.getD 0 < 2 ^ 64) →
        ∀ (i : Nat) (h : i < vs.length),
        (PageData.from_floats vs).get_float i = some (vs.get ⟨i, h⟩)) ∧
    (∀ (vs : List (Option (List Nat))) (i : Nat) (h : i < vs.length),
        (PageData.from_strings vs).get_string i = some (vs.get ⟨i, h⟩)) := by
  refine ⟨?pb, ?pi, ?pf, ?ps⟩
  case pb =>
    intro vs i h
    have hv := List.get?_eq_get h
    show (match (vs.map Option.isNone).get? i with
      | none => none
      | some true => some none
      | some false =>
        some ((bytesToBits (bitsToBytes (vs.map (fun e => e.getD false)))).get? i))
      = some (vs.get ⟨i, h⟩)
    rw [List.get?_map, hv]
    cases hvi : vs.get ⟨i, h⟩ with
    | none => rfl
    | some b =>
      show some ((bytesToBits (bitsToBytes (vs.map (fun e => e.getD false)))).get? i)
        = some (some b)
      rw [get?_bytesToBits_bitsToBytes _ i (by simpa using h), List.get?_map, hv, hvi]
      rfl
  case pi =>
    intro vs hb i h
    have hv := List.get?_eq_get h
    show (match (vs.map Option.isNone).get? i with
      | none => none
      | some true => some none
      | some false =>
        match slice8 ((vs.map (fun e => encI64 (e.getD 0))).flatten) i with
        | none => none
        | some s => some (some (decI64 s)))
      = some (vs.get ⟨i, h⟩)
    rw [List.get?_map, hv]
    cases hvi : vs.get ⟨i, h⟩ with
    | none => rfl
    | some v =>
      rw [hvi] at hv
      have hs : slice8 ((vs.map (fun e => encI64 (e.getD 0))).flatten) i
          = some (encI64 v) := by
        rw [slice8_flatten _ ?hlen i (by simpa using h)]
        · rw [List.get?_map, hv]
          rfl
        case hlen =>
          intro x hx
          obtain ⟨e, _, he⟩ := List.mem_map.mp hx
          rw [← he]
          exact toLE_length 8 _
      rw [hs]
      have hmem : some v ∈ vs := List.get?_mem hv
      have hbv := hb (some v) hmem
      simp only [Option.getD_some] at hbv
      show some (some (decI64 (encI64 v))) = some (some v)
      rw [decI64_encI64 v hbv.1 hbv.2]
  case pf =>
    intro vs hb i h
    have hv := List.get?_eq_get h
    show (match (vs.map Option.isNone).get? i with
      | none => none
      | some true => some none
      | some false =>
        match slice8 ((vs.map (fun e => toLE 8 (e.getD 0))).flatten) i with
        | none => none
        | some s => some (some (fromLE s)))
      = some (vs.get ⟨i, h⟩)
    rw [List.get?_map, hv]
    cases hvi : vs.get ⟨i, h⟩ with
    | none => rfl
    | some p =>
      rw [hvi] at hv
      have hs : slice8 ((vs.map (fun e => toLE 8 (e.getD 0))).flatten) i
          = some (toLE 8 p) := by
        rw [slice8_flatten _ ?hlen i (by simpa using h)]
        · rw [List.get?_map, hv]
          rfl
        case hlen =>
          intro x hx
          obtain ⟨e, _, he⟩ := List.mem_map.mp hx
          rw [← he]
          exact toLE_length 8 _
      rw [hs]
      have hmem : some p ∈ vs := List.get?_mem hv
      have hbp := hb (some p) hmem
      simp only [Option.getD_some] at hbp
      show some (some (fromLE (toLE 8 p))) = some (some p)
      rw [fromLE_toLE]
      have h256 : (256 : Nat) ^ 8 = 2 ^ 64 := by norm_num
      rw [h256, Nat.mod_eq_of_lt hbp]
  case ps =>
    intro vs i h
    have hv := List.get?_eq_get h
    show (match (vs.map Option.isNone).get? i with
      | none => none
      | some true => some none
      | some false =>
        match (prefixSums (vs.map (fun e => (e.getD []).length))).get? i,
              (prefixSums (vs.map (fun e => (e.getD []).length))).get? (i + 1) with
        | some a, some b =>
          match sliceRange ((vs.map (fun e => e.getD [])).flatten) a b with
          | none => none
          | some s => some (some s)
        | _, _ => none)
      = some (vs.get ⟨i, h⟩)
    rw [List.get?_map, hv]
    cases hvi : vs.get ⟨i, h⟩ with
    | none => rfl
    | some s =>
      rw [hvi] at hv
      have hlens : vs.map (fun e => (e.getD []).length)
          = (vs.map (fun e => e.getD [])).map List.length := by
        rw [List.map_map]
        rfl
      have hlen2 : ((vs.map (fun e => e.getD [])).map List.length).length
          = vs.length := by simp
      have ho1 : (prefixSums (vs.map (fun e => (e.getD []).length))).get? i
          = some ((((vs.map (fun e => e.getD [])).map List.length).take i).sum) := by
        rw [hlens, prefixSums_get? _ i (by rw [hlen2]; omega)]
      have ho2 : (prefixSums (vs.map (fun e => (e.getD []).length))).get? (i + 1)
          = some ((((vs.map (fun e => e.getD [])).map List.length).take (i + 1)).sum) := by
        rw [hlens, prefixSums_get? _ (i + 1) (by rw [hlen2]; omega)]
      rw [ho1, ho2]
      simp only [Option.map_some', Option.isNone_some]
      have hsl := sliceRange_flatten (vs.map (fun e => e.getD [])) i
        (by simpa using h)
      rw [hsl, List.get?_map, hv]
      rfl

/-- Witness for C1: the round-trip instantiated at concrete mixed inputs of
    all four types, null and non-null rows, including an empty string row. -/
theorem C1_codec_roundtrip_witness :
    (PageData.from_bools [some true, none, some false]).get_bool 1 = some none ∧
    (PageData.from_ints [some 5, none, some (-3)]).get_int 2 = some (some (-3)) ∧
    (PageData.from_floats [some 7, none]).get_float 0 = some (some 7) ∧
    (PageData.from_strings [some [97, 98], none, some []]).get_string 2
      = some (some []) := by
  refine ⟨?wb, ?wi, ?wf, ?ws⟩
  case wb =>
    exact (C1_codec_roundtrip.1 [some true, none, some false] 1 (by decide)).trans
      (by rfl)
  case wi =>
    exact (C1_codec_roundtrip.2.1 [some 5, none, some (-3)] (by decide) 2
      (by decide)).trans (by rfl)
  case wf =>
    exact (C1_codec_roundtrip.2.2.1 [some 7, none] (by decide) 0
      (by decide)).trans (by rfl)
  case ws =>
    exact (C1_codec_roundtrip.2.2.2 [some [97, 98], none, some []] 2
      (by decide)).trans (by rfl)

/-- Agreement of two page bodies on the bytes of every non-null row, sliced
    the way the accessor of the first page's type reads them: packed bits for
    Bool, the 8-byte word at the row index for Int/Float, the offset-table
    slice for String. Null rows are unconstrained (placeholder bytes may
    differ arbitrarily). -/
def rowAgree (d1 d2 : PageData) : Prop :=
  (d1.typ = Ty.bool → ∀ i, d1.nulls.get? i = some false →
     (bytesToBits d1.bytes).get? i = (bytesToBits d2.bytes).get? i) ∧
  ((d1.typ = Ty.int ∨ d1.typ = Ty.float) → ∀ i, d1.nulls.get? i = some false →
     slice8 d1.bytes i = slice8 d2.bytes i) ∧
  (d1.typ = Ty.string → ∀ i a b, d1.nulls.get? i = some false →
     d1.offsets.get? i = some a → d1.offsets.get? (i + 1) = some b →
     sliceRange d1.bytes a b = sliceRange d2.bytes a b)

/-- C8: decoding depends only on the null bit, never on placeholder bytes —
    two pages that agree on type, null bitmap, offset table and the bytes of
    all non-null rows produce identical results from the matching accessor at
    every index (null rows return `None` without consulting the buffer). -/
theorem C8_null_independence (d1 d2 : PageData) (ht : d1.typ = d2.typ)
    (hn : d1.nulls = d2.nulls) (ho : d1.offsets = d2.offsets)
    (ha : rowAgree d1 d2) (idx : Nat) :
    (d1.typ = Ty.bool → d1.get_bool idx = d2.get_bool idx) ∧
    (d1.typ = Ty.int → d1.get_int idx = d2.get_int idx) ∧
    (d1.typ = Ty.float → d1.get_float idx = d2.get_float idx) ∧
    (d1.typ = Ty.string → d1.get_string idx = d2.get_string idx) := by
  refine ⟨?pb, ?pi, ?pf, ?ps⟩
  case pb =>
    intro htyp
    unfold PageData.get_bool
    rw [← hn]
    cases hnu : d1.nulls.get? idx with
    | none => rfl
    | some b =>
      cases b with
      | true => rfl
      | false => rw [ha.1 htyp idx hnu]
  case pi =>
    intro htyp
    unfold PageData.get_int
    rw [← hn]
    cases hnu : d1.nulls.get? idx with
    | none => rfl
    | some b =>
      cases b with
      | true => rfl
      | false => rw [ha.2.1 (Or.inl htyp) idx hnu]
  case pf =>
    intro htyp
    unfold PageData.get_float
    rw [← hn]
    cases hnu : d1.nulls.get? idx with
    | none => rfl
    | some b =>
      cases b with
      | true => rfl
      | false => rw [ha.2.1 (Or.inr htyp) idx hnu]
  case ps =>
    intro htyp
    unfold PageData.get_string
    rw [← hn, ← ho]
    cases hnu : d1.nulls.get? idx with
    | none => rfl
    | some b =>
      cases b with
      | true => rfl
      | false =>
        cases hoa : d1.offsets.get? idx with
        | none => rfl
        | some a =>
          cases hob : d1.offsets.get? (idx + 1) with
          | none => rfl
          | some bb =>
            show (match sliceRange d1.bytes a bb with
              | none => none
              | some s => some (some s)) =
              (match sliceRange d2.bytes a bb with
              | none => none
              | some s => some (some s))
            rw [ha.2.2 htyp idx a bb hnu hoa hob]

/-- Witness for C8: an Int page `[Some 5, None]` compared against the same
    page with the null row's placeholder bytes overwritten by `0xFF`; the
    accessor agrees at both indices. -/
theorem C8_null_independence_witness :
    (PageData.from_ints [some 5, none]).get_int 0
      = (PageData.mk [5, 0, 0, 0, 0, 0, 0, 0, 255, 255, 255, 255, 255, 255, 255, 255]
          [false, true] [] Ty.int).get_int 0 ∧
    (PageData.from_ints [some 5, none]).get_int 1
      = (PageData.mk [5, 0, 0, 0, 0, 0, 0, 0, 255, 255, 255, 255, 255, 255, 255, 255]
          [false, true] [] Ty.int).get_int 1 := by
  have hAg : rowAgree (PageData.from_ints [some 5, none])
      (PageData.mk [5, 0, 0, 0, 0, 0, 0, 0, 255, 255, 255, 255, 255, 255, 255, 255]
        [false, true] [] Ty.int) := by
    refine ⟨?a, ?b, ?c⟩
    case a => intro h; exact absurd h (by decide)
    case b =>
      intro _ i hi
      rcases i with _ | _ | i
      · decide
      · exact absurd hi (by decide)
      · exact absurd hi (by simp [PageData.from_ints])
    case c => intro h; exact absurd h (by decide)
  exact ⟨(C8_null_independence (PageData.from_ints [some 5, none])
      (PageData.mk [5, 0, 0, 0, 0, 0, 0, 0, 255, 255, 255, 255, 255, 255, 255, 255]
        [false, true] [] Ty.int) rfl rfl rfl hAg 0).2.1 rfl,
     (C8_null_independence (PageData.from_ints [some 5, none])
      (PageData.mk [5, 0, 0, 0, 0, 0, 0, 0, 255, 255, 255, 255, 255, 255, 255, 255]
        [false, true] [] Ty.int) rfl rfl rfl hAg 1).2.1 rfl⟩

/-- C10: constructing a collection from an empty page list is impossible —
    the distinct-type set is empty, so the single-type assertion in
    Collection::new fails (modeled as `none`) for every collection id. -/
theorem C10_empty_collection_impossible (id : Nat) : Collection.new id [] = none := by
  rfl

theorem readN_exact (pre rest : List Nat) :
    readN pre.length (pre ++ rest) = (pre, rest) := by
  unfold readN
  rw [List.take_left, List.drop_left]
  have h0 : pre.length - (pre ++ rest).length = 0 := by
    rw [List.length_append]; omega
  rw [h0, List.replicate_zero, List.append_nil]

theorem chunks8F_nil (fuel : Nat) : chunks8F fuel [] = [] := by
  cases fuel <;> rfl

theorem chunks8F_flatten (ls : List (List Nat)) : ∀ (fuel : Nat),
    ls.flatten.length ≤ fuel → (∀ x ∈ ls, x.length = 8) →
    chunks8F fuel ls.flatten = ls := by
  induction ls with
  | nil =>
    intro fuel _ _
    rw [List.flatten_nil, chunks8F_nil]
  | cons x t ih =>
    intro fuel hfuel h8
    have hx : x.length = 8 := h8 x (by simp)
    have hlen : (x :: t).flatten.length = 8 + t.flatten.length := by
      rw [List.flatten_cons, List.length_append, hx]
    cases fuel with
    | zero =>
      rw [hlen] at hfuel
      omega
    | succ fuel =>
      have hne : (x :: t).flatten ≠ [] := by
        intro hcon
        rw [hcon] at hlen
        simp only [List.length_nil] at hlen
        omega
      rw [chunks8F, if_neg hne, List.flatten_cons]
      congr 1
      · rw [← hx, List.take_left]
      · rw [← hx, List.drop_left]
        exact ih fuel (by rw [hlen] at hfuel; omega)
          (fun y hy => h8 y (by simp [hy]))

theorem chunks8_flatten (ls : List (List Nat)) (h8 : ∀ x ∈ ls, x.length = 8) :
    chunks8 ls.flatten = ls :=
  chunks8F_flatten ls ls.flatten.length le_rfl h8

theorem write_eq (compress : List Nat → List Nat) (id path offset : Nat)
    (d : PageData) :
    PageWriter.write compress id path offset d =
    ({ id := id, offset := offset, path := path, size := d.len
     , stats := PageStats.default, typ := d.typ },
     toLE 8 (bitsToBytes d.nulls).length ++ (bitsToBytes d.nulls ++
       ((d.offsets.map (toLE 8)).flatten ++ compress d.bytes))) := by
  unfold PageWriter.write PageWriter.write_nulls PageWriter.write_offsets
  simp [List.append_assoc]

theorem load_page_eq (decompress : List Nat → List Nat) (meta : PageMeta)
    (file : List Nat) :
    PageMeta.load_page decompress meta file =
    { bytes := decompress (if meta.typ = Ty.string
        then (readN ((meta.size + 1) * 8)
          (readN (fromLE (readN 8 file).1) (readN 8 file).2).2).2
        else (readN (fromLE (readN 8 file).1) (readN 8 file).2).2)
    , nulls := bytesToBits (readN (fromLE (readN 8 file).1) (readN 8 file).2).1
    , offsets := if meta.typ = Ty.string
        then (chunks8 (readN ((meta.size + 1) * 8)
          (readN (fromLE (readN 8 file).1) (readN 8 file).2).2).1).map fromLE
        else []
    , typ := meta.typ } := by
  unfold PageMeta.load_page
  by_cases hty : meta.typ = Ty.string
  · simp only [if_pos hty]
  · simp only [if_neg hty]

/-- Shared persistence round-trip computation: loading a page file written by
    PageWriter::write yields the original bytes, offsets and type, but a null
    bitmap padded with `false` up to the byte boundary (the file stores only
    the bitmap's byte length, and `BitVec::from_slice` yields 8 bits per
    byte). Preconditions are the constructor invariants (offset-table shape)
    and 64-bit size bounds; `decompress` must invert `compress`. -/
theorem load_page_write (compress decompress : List Nat → List Nat)
    (hcd : ∀ x, decompress (compress x) = x)
    (d : PageData) (pid path offset : Nat)
    (hoffS : d.typ = Ty.string → d.offsets.length = d.len + 1)
    (hoffE : d.typ ≠ Ty.string → d.offsets = [])
    (hobound : ∀ o ∈ d.offsets, o < 2 ^ 64)
    (hnbound : (bitsToBytes d.nulls).length < 2 ^ 64) :
    PageMeta.load_page decompress (PageWriter.write compress pid path offset d).1
      (PageWriter.write compress pid path offset d).2 =
    { bytes := d.bytes
    , nulls := d.nulls ++ List.replicate (8 * ((d.len + 7) / 8) - d.len) false
    , offsets := d.offsets
    , typ := d.typ } := by
  rw [write_eq]
  rw [load_page_eq]
  have h0 : readN 8 (toLE 8 (bitsToBytes d.nulls).length ++ (bitsToBytes d.nulls ++
      ((d.offsets.map (toLE 8)).flatten ++ compress d.bytes)))
      = (toLE 8 (bitsToBytes d.nulls).length,
         bitsToBytes d.nulls ++ ((d.offsets.map (toLE 8)).flatten ++ compress d.bytes)) := by
    conv_lhs =>
      rw [show (8 : Nat) = (toLE 8 (bitsToBytes d.nulls).length).length from
        (toLE_length _ _).symm]
    exact readN_exact _ _
  have hL : fromLE (toLE 8 (bitsToBytes d.nulls).length)
      = (bitsToBytes d.nulls).length := by
    rw [fromLE_toLE]
    have h2 : (256 : Nat) ^ 8 = 2 ^ 64 := by norm_num
    rw [h2]
    exact Nat.mod_eq_of_lt hnbound
  have h1 : readN (bitsToBytes d.nulls).length (bitsToBytes d.nulls ++
      ((d.offsets.map (toLE 8)).flatten ++ compress d.bytes))
      = (bitsToBytes d.nulls, (d.offsets.map (toLE 8)).flatten ++ compress d.bytes) :=
    readN_exact _ _
  simp only [h0, hL, h1]
  have hOBlen8 : ∀ x ∈ d.offsets.map (toLE 8), x.length = 8 := by
    intro x hx
    obtain ⟨o, _, he⟩ := List.mem_map.mp hx
    rw [← he]
    exact toLE_length 8 o
  have hnulls : bytesToBits (bitsToBytes d.nulls)
      = d.nulls ++ List.replicate (8 * ((d.len + 7) / 8) - d.len) false := by
    rw [bytesToBits_bitsToBytes]
    rfl
  by_cases hty : d.typ = Ty.string
  · simp only [if_pos hty]
    have hOB : ((PageData.len d + 1) * 8)
        = ((d.offsets.map (toLE 8)).flatten).length := by
      rw [flatten_length_const _ 8 hOBlen8, List.length_map, hoffS hty]
    have h2 : readN ((PageData.len d + 1) * 8) ((d.offsets.map (toLE 8)).flatten
        ++ compress d.bytes)
        = ((d.offsets.map (toLE 8)).flatten, compress d.bytes) := by
      rw [hOB]
      exact readN_exact _ _
    simp only [h2]
    have hchunks : chunks8 ((d.offsets.map (toLE 8)).flatten)
        = d.offsets.map (toLE 8) := chunks8_flatten _ hOBlen8
    rw [hchunks, List.map_map]
    have hoid : d.offsets.map (fromLE ∘ toLE 8) = d.offsets := by
      have hcongr : ∀ o ∈ d.offsets, (fromLE ∘ toLE 8) o = id o := by
        intro o ho
        show fromLE (toLE 8 o) = o
        rw [fromLE_toLE]
        have h2 : (256 : Nat) ^ 8 = 2 ^ 64 := by norm_num
        rw [h2]
        exact Nat.mod_eq_of_lt (hobound o ho)
      rw [List.map_congr_left hcongr, List.map_id]
    rw [hoid, hcd, hnulls]
  · simp only [if_neg hty]
    rw [hoffE hty]
    simp only [List.map_nil, List.flatten_nil, List.nil_append]
    rw [hcd, hnulls]

theorem prefixSums_length (lens : List Nat) :
    (prefixSums lens).length = lens.length + 1 := by
  induction lens with
  | nil => rfl
  | cons x t ih => simp [prefixSums, ih]

/-- C2 counterexample: the persistence round-trip is not the identity — a
    one-row Int page reads back with an 8-bit null bitmap (the file stores
    only the bitmap's byte length), so the loaded page differs from the
    original. The compressor is instantiated with the identity. -/
theorem C2_persistence_roundtrip_counterexample :
    PageMeta.load_page (fun x => x)
      (PageWriter.write (fun x => x) 0 0 0 (PageData.from_ints [some 1])).1
      (PageWriter.write (fun x => x) 0 0 0 (PageData.from_ints [some 1])).2
      ≠ PageData.from_ints [some 1] := by
  decide

/-- C2 amended: writing a page and loading it back from the produced file
    returns the same value bytes, offset table and type tag, and the null
    bitmap padded with `false` bits up to the byte boundary; the round-trip
    is exact precisely when the row count is a multiple of 8 (in particular
    for a page of size 0). Hypotheses: the decompressor inverts the
    compressor, the page satisfies the constructor offset-table invariant,
    and sizes fit in 64 bits. -/
theorem C2_persistence_roundtrip (compress decompress : List Nat → List Nat)
    (hcd : ∀ x, decompress (compress x) = x)
    (d : PageData) (pid path offset : Nat)
    (hoffS : d.typ = Ty.string → d.offsets.length = d.len + 1)
    (hoffE : d.typ ≠ Ty.string → d.offsets = [])
    (hobound : ∀ o ∈ d.offsets, o < 2 ^ 64)
    (hnbound : (bitsToBytes d.nulls).length < 2 ^ 64) :
    PageMeta.load_page decompress (PageWriter.write compress pid path offset d).1
      (PageWriter.write compress pid path offset d).2 =
    { bytes := d.bytes
    , nulls := d.nulls ++ List.replicate (8 * ((d.len + 7) / 8) - d.len) false
    , offsets := d.offsets
    , typ := d.typ } ∧
    (d.len % 8 = 0 →
      PageMeta.load_page decompress (PageWriter.write compress pid path offset d).1
        (PageWriter.write compress pid path offset d).2 = d) := by
  refine ⟨load_page_write compress decompress hcd d pid path offset
    hoffS hoffE hobound hnbound, ?p2⟩
  intro h8
  rw [load_page_write compress decompress hcd d pid path offset
    hoffS hoffE hobound hnbound]
  have hpad : 8 * ((d.len + 7) / 8) - d.len = 0 := by
    unfold PageData.len at h8 ⊢
    omega
  rw [hpad, List.replicate_zero, List.append_nil]

/-- Witness for C2: the amended round-trip at a concrete one-row Int page and
    at a concrete 8-row Bool page (row count a multiple of 8, hence an exact
    round-trip), with the identity compressor. -/
theorem C2_persistence_roundtrip_witness :
    PageMeta.load_page (fun x => x)
      (PageWriter.write (fun x => x) 0 0 0 (PageData.from_ints [some 1])).1
      (PageWriter.write (fun x => x) 0 0 0 (PageData.from_ints [some 1])).2
      = { bytes := [1, 0, 0, 0, 0, 0, 0, 0]
        , nulls := [false, false, false, false, false, false, false, false]
        , offsets := [], typ := Ty.int } ∧
    PageMeta.load_page (fun x => x)
      (PageWriter.write (fun x => x) 0 0 0
        (PageData.from_bools (List.replicate 8 (some true)))).1
      (PageWriter.write (fun x => x) 0 0 0
        (PageData.from_bools (List.replicate 8 (some true)))).2
      = PageData.from_bools (List.replicate 8 (some true)) := by
  constructor
  · exact (C2_persistence_roundtrip (fun x => x) (fun x => x) (fun x => rfl)
      (PageData.from_ints [some 1]) 0 0 0
      (by intro h; exact absurd h (by decide))
      (by intro _; rfl)
      (by intro o ho; simp [PageData.from_ints] at ho)
      (by decide)).1.trans (by decide)
  · exact (C2_persistence_roundtrip (fun x => x) (fun x => x) (fun x => rfl)
      (PageData.from_bools (List.replicate 8 (some true))) 0 0 0
      (by intro h; exact absurd h (by decide))
      (by intro _; rfl)
      (by intro o ho; simp [PageData.from_bools] at ho)
      (by decide)).2 (by decide)

/-- C5 counterexample: the invariant `nulls.len() == row_count` fails for a
    page read back from disk — a one-row Int page loads with an 8-bit null
    bitmap while its meta declares one row. -/
theorem C5_invariant_counterexample :
    (PageMeta.load_page (fun x => x)
      (PageWriter.write (fun x => x) 0 0 0 (PageData.from_ints [some 1])).1
      (PageWriter.write (fun x => x) 0 0 0 (PageData.from_ints [some 1])).2).nulls.length
      ≠ (PageWriter.write (fun x => x) 0 0 0 (PageData.from_ints [some 1])).1.size := by
  decide

/-- C5 amended: every `from_*` constructor satisfies the invariant
    (`nulls.len() = row_count`; `offsets.len() = row_count + 1` for String and
    empty otherwise); a page read back from a written file satisfies the
    offsets invariant but has `nulls.len() = 8 * ceil(row_count / 8)`, which
    equals the row count only when the row count is a multiple of 8. -/
theorem C5_pagedata_invariant :
    (∀ vs : List (Option Bool), (PageData.from_bools vs).nulls.length = vs.length
       ∧ (PageData.from_bools vs).offsets = []) ∧
    (∀ vs : List (Option Int), (PageData.from_ints vs).nulls.length = vs.length
       ∧ (PageData.from_ints vs).offsets = []) ∧
    (∀ vs : List (Option Nat), (PageData.from_floats vs).nulls.length = vs.length
       ∧ (PageData.from_floats vs).offsets = []) ∧
    (∀ vs : List (Option (List Nat)),
       (PageData.from_strings vs).nulls.length = vs.length
       ∧ (PageData.from_strings vs).offsets.length = vs.length + 1) ∧
    (∀ (compress decompress : List Nat → List Nat),
       (∀ x, decompress (compress x) = x) →
       ∀ (d : PageData) (pid path offset : Nat),
       (d.typ = Ty.string → d.offsets.length = d.len + 1) →
       (d.typ ≠ Ty.string → d.offsets = []) →
       (∀ o ∈ d.offsets, o < 2 ^ 64) →
       (bitsToBytes d.nulls).length < 2 ^ 64 →
       (PageMeta.load_page decompress (PageWriter.write compress pid path offset d).1
          (PageWriter.write compress pid path offset d).2).nulls.length
         = 8 * ((d.len + 7) / 8) ∧
       (PageMeta.load_page decompress (PageWriter.write compress pid path offset d).1
          (PageWriter.write compress pid path offset d).2).offsets = d.offsets) := by
  refine ⟨?pb, ?pi, ?pf, ?ps, ?pl⟩
  case pb => intro vs; exact ⟨by simp [PageData.from_bools], rfl⟩
  case pi => intro vs; exact ⟨by simp [PageData.from_ints], rfl⟩
  case pf => intro vs; exact ⟨by simp [PageData.from_floats], rfl⟩
  case ps =>
    intro vs
    refine ⟨by simp [PageData.from_strings], ?hs⟩
    show (prefixSums (vs.map (fun e => (e.getD []).length))).length = vs.length + 1
    rw [prefixSums_length, List.length_map]
  case pl =>
    intro compress decompress hcd d pid path offset hoffS hoffE hobound hnbound
    rw [load_page_write compress decompress hcd d pid path offset
      hoffS hoffE hobound hnbound]
    constructor
    · show (d.nulls ++ List.replicate (8 * ((d.len + 7) / 8) - d.len) false).length
        = 8 * ((d.len + 7) / 8)
      rw [List.length_append, List.length_replicate]
      unfold PageData.len
      omega
    · rfl

/-- Witness for C5: the constructor invariant at a concrete two-row String
    page, and the padded loaded bitmap length (8) for a concrete one-row Int
    page. -/
theorem C5_pagedata_invariant_witness :
    (PageData.from_strings [some [97], none]).offsets.length = 3 ∧
    (PageMeta.load_page (fun x => x)
      (PageWriter.write (fun x => x) 0 0 0 (PageData.from_ints [some 1])).1
      (PageWriter.write (fun x => x) 0 0 0 (PageData.from_ints [some 1])).2).nulls.length
      = 8 := by
  constructor
  · exact (C5_pagedata_invariant.2.2.2.1 [some [97], none]).2.trans (by decide)
  · exact (C5_pagedata_invariant.2.2.2.2 (fun x => x) (fun x => x) (fun x => rfl)
      (PageData.from_ints [some 1]) 0 0 0
      (by intro h; exact absurd h (by decide))
      (by intro _; rfl)
      (by intro o ho; simp [PageData.from_ints] at ho)
      (by decide)).1.trans (by decide)

/-- C7: when a cache miss's page load fails, PageCache::get propagates the
    error and leaves the cache unchanged — the key is not inserted — so a
    subsequent get for the same key invokes the loader again (and, when that
    load succeeds, inserts the freshly loaded page) instead of returning a
    cached failure. -/
theorem C7_cache_miss_failure (load : PageMeta → Except LoadError PageData)
    (c : PageCache) (key : PageKey) (meta : PageMeta) (e : LoadError)
    (hmiss : lruGet c.pages key = none) (hfail : load meta = Except.error e) :
    PageCache.getE load c key meta = (Except.error e, c) ∧
    (∀ (load2 : PageMeta → Except LoadError PageData) (d : PageData),
      load2 meta = Except.ok d →
      PageCache.getE load2 (PageCache.getE load c key meta).2 key meta
        = (Except.ok { data := d, meta := meta },
           { c with pages := lruPut c.pages c.cap key { data := d, meta := meta } })) := by
  have h1 : PageCache.getE load c key meta = (Except.error e, c) := by
    unfold PageCache.getE
    rw [hmiss, hfail]
  refine ⟨h1, ?p2⟩
  intro load2 d hok
  rw [h1]
  unfold PageCache.getE
  rw [hmiss, hok]

/-- Witness for C7: a failing loader on the empty cache propagates `IOError`
    and leaves the cache empty; a retry with a succeeding loader inserts the
    page. -/
theorem C7_cache_miss_failure_witness :
    PageCache.getE (fun _ => Except.error LoadError.ioError) PageCache.new (0, 0)
      { id := 0, offset := 0, path := 0, size := 0, stats := PageStats.default
      , typ := Ty.int }
      = (Except.error LoadError.ioError, PageCache.new) ∧
    PageCache.getE (fun _ => Except.ok (PageData.from_ints []))
      (PageCache.getE (fun _ => Except.error LoadError.ioError) PageCache.new (0, 0)
        { id := 0, offset := 0, path := 0, size := 0, stats := PageStats.default
        , typ := Ty.int }).2 (0, 0)
      { id := 0, offset := 0, path := 0, size := 0, stats := PageStats.default
      , typ := Ty.int }
      = (Except.ok { data := PageData.from_ints []
                   , meta := { id := 0, offset := 0, path := 0, size := 0
                             , stats := PageStats.default, typ := Ty.int } },
         { pages := [((0, 0),
             { data := PageData.from_ints []
             , meta := { id := 0, offset := 0, path := 0, size := 0
                       , stats := PageStats.default, typ := Ty.int } })]
         , cap := PageCache.SIZE }) := by
  have h := C7_cache_miss_failure (fun _ => Except.error LoadError.ioError)
    PageCache.new (0, 0)
    { id := 0, offset := 0, path := 0, size := 0, stats := PageStats.default
    , typ := Ty.int } LoadError.ioError rfl rfl
  exact ⟨h.1, (h.2 (fun _ => Except.ok (PageData.from_ints []))
    (PageData.from_ints []) rfl).trans rfl⟩

/-- The cache entry the loader produces for a key: the page built from the
    key's meta and the loaded data. -/
def pairOf (load : PageMeta → PageData) (metaOf : PageKey → PageMeta)
    (k : PageKey) : PageKey × Page :=
  (k, { data := load (metaOf k), meta := metaOf k })

/-- Folding a sequence of PageCache::get calls over a key list. -/
def runGets (load : PageMeta → PageData) (metaOf : PageKey → PageMeta)
    (ks : List PageKey) (c : PageCache) : PageCache :=
  ks.foldl (fun cc k => (PageCache.get load cc k (metaOf k)).2.2) c

theorem lruGet_map_pair_none (load : PageMeta → PageData)
    (metaOf : PageKey → PageMeta) (acc : List PageKey) (k : PageKey)
    (hk : k ∉ acc) : lruGet (acc.map (pairOf load metaOf)) k = none := by
  induction acc with
  | nil => rfl
  | cons a t ih =>
    have hka : ¬ a = k := fun h => hk (by simp [h])
    have hkt : k ∉ t := fun h => hk (by simp [h])
    unfold lruGet
    rw [List.map_cons, List.find?_cons_of_neg _ (by simpa [pairOf] using hka)]
    exact ih hkt

theorem lruGet_map_pair_mem (load : PageMeta → PageData)
    (metaOf : PageKey → PageMeta) (acc : List PageKey) (k : PageKey)
    (hk : k ∈ acc) : lruGet (acc.map (pairOf load metaOf)) k
      = some { data := load (metaOf k), meta := metaOf k } := by
  induction acc with
  | nil => simp at hk
  | cons a t ih =>
    unfold lruGet
    rw [List.map_cons]
    by_cases hka : a = k
    · subst hka
      rw [List.find?_cons_of_pos _ (by simp [pairOf])]
      rfl
    · rw [List.find?_cons_of_neg _ (by simpa [pairOf] using hka)]
      have hkt : k ∈ t := by
        rcases List.mem_cons.mp hk with h | h
        · exact absurd h.symm hka
        · exact h
      exact ih hkt

theorem lruContains_eq (l : List (PageKey × Page)) (k : PageKey) :
    lruContains l k = (lruGet l k).isSome := by
  induction l with
  | nil => rfl
  | cons e t ih =>
    unfold lruContains lruGet
    rw [List.any_cons]
    by_cases he : e.1 = k
    · rw [List.find?_cons_of_pos _ (by simpa using he)]
      simp [he]
    · rw [List.find?_cons_of_neg _ (by simpa using he)]
      simp only [decide_eq_false he, Bool.false_or]
      exact ih

/-- Cache evolution under gets for pairwise-fresh keys: starting from a cache
    holding (the first `C` of) the previously seen keys in most-recent-first
    order, processing a nodup list of unseen keys leaves the cache holding the
    most recent `C` keys. -/
theorem runGets_fresh (load : PageMeta → PageData) (metaOf : PageKey → PageMeta)
    (C : Nat) (hC : 0 < C) :
    ∀ (ks acc : List PageKey), (∀ k ∈ ks, k ∉ acc) → ks.Nodup →
    runGets load metaOf ks
      { pages := (acc.take C).map (pairOf load metaOf), cap := C }
      = { pages := ((ks.reverse ++ acc).take C).map (pairOf load metaOf)
        , cap := C } := by
  intro ks
  induction ks with
  | nil =>
    intro acc _ _
    simp [runGets]
  | cons k t ih =>
    intro acc hfresh hnd
    have hk_acc : k ∉ acc := hfresh k (by simp)
    have hk_take : k ∉ acc.take C := fun hmem => hk_acc (List.take_subset C acc hmem)
    have hmiss : lruGet ((acc.take C).map (pairOf load metaOf)) k = none :=
      lruGet_map_pair_none load metaOf (acc.take C) k hk_take
    have hstep : (PageCache.get load
        { pages := (acc.take C).map (pairOf load metaOf), cap := C } k
        (metaOf k)).2.2
        = { pages := ((k :: acc).take C).map (pairOf load metaOf), cap := C } := by
      unfold PageCache.get
      rw [hmiss]
      show ({ pages := lruPut ((acc.take C).map (pairOf load metaOf)) C k (pairOf load metaOf k).2, cap := C } : PageCache) = _
      unfold lruPut
      rw [lruContains_eq, hmiss]
      simp only [Option.isSome_none, Bool.false_eq_true, if_false]
      rw [List.length_map, List.length_take]
      by_cases hlt : acc.length < C
      · rw [if_pos (by omega)]
        have h1 : acc.take C = acc := List.take_of_length_le (by omega)
        have h2 : (k :: acc).take C = k :: acc.take (C - 1) := by
          cases C with
          | zero => exact absurd hC (lt_irrefl 0)
          | succ c =>
            rw [List.take_succ_cons]
            simp
        have h3 : acc.take (C - 1) = acc := List.take_of_length_le (by omega)
        rw [h1, h2, h3, List.map_cons]
        rfl
      · rw [if_neg (by omega)]
        have h2 : (k :: acc).take C = k :: acc.take (C - 1) := by
          cases C with
          | zero => exact absurd hC (lt_irrefl 0)
          | succ c =>
            rw [List.take_succ_cons]
            simp
        have h4 : ((acc.take C).map (pairOf load metaOf)).dropLast
            = (acc.take (C - 1)).map (pairOf load metaOf) := by
          rw [← List.map_dropLast, List.dropLast_eq_take, List.length_take,
            List.take_take]
          have h5 : min C acc.length - 1 = C - 1 := by omega
          have h6 : min (C - 1) C = C - 1 := by omega
          rw [h5, h6]
        rw [h4, h2, List.map_cons]
        rfl
    have hrun : runGets load metaOf (k :: t)
        { pages := (acc.take C).map (pairOf load metaOf), cap := C }
        = runGets load metaOf t ((PageCache.get load
            { pages := (acc.take C).map (pairOf load metaOf), cap := C } k
            (metaOf k)).2.2) := rfl
    rw [hrun, hstep]
    have hfresh2 : ∀ k2 ∈ t, k2 ∉ k :: acc := by
      intro k2 hk2
      rw [List.mem_cons]
      rintro (h | h)
      · exact (List.nodup_cons.mp hnd).1 (h ▸ hk2)
      · exact hfresh k2 (by simp [hk2]) h
    rw [ih (k :: acc) hfresh2 (List.nodup_cons.mp hnd).2]
    have hrew : t.reverse ++ (k :: acc) = (k :: t).reverse ++ acc := by
      rw [List.reverse_cons, List.append_assoc]
      rfl
    rw [hrew]

/-- C6: the page cache has fixed capacity 256 and evicts in strict
    least-recently-used order of get calls: after gets for `SIZE + 1` distinct
    keys in order starting from the empty cache, the first key has been
    evicted (a get for it performs a fresh load, middle component `true`)
    while the other `SIZE` keys remain cached (their gets perform no load),
    and no prefix of the run ever holds more than `SIZE` pages. -/
theorem C6_lru_eviction (load : PageMeta → PageData) (metaOf : PageKey → PageMeta)
    (k0 : PageKey) (rest : List PageKey)
    (hnd : (k0 :: rest).Nodup) (hlen : rest.length = PageCache.SIZE) :
    PageCache.new.cap = 256 ∧
    (PageCache.get load (runGets load metaOf (k0 :: rest) PageCache.new) k0
      (metaOf k0)).2.1 = true ∧
    (∀ k ∈ rest, (PageCache.get load (runGets load metaOf (k0 :: rest) PageCache.new)
      k (metaOf k)).2.1 = false) ∧
    (∀ n, (runGets load metaOf ((k0 :: rest).take n) PageCache.new).pages.length
      ≤ PageCache.SIZE) := by
  have hC : 0 < PageCache.SIZE := by norm_num [PageCache.SIZE]
  have hempty : PageCache.new = { pages := (([] : List PageKey).take PageCache.SIZE).map (pairOf load metaOf), cap := PageCache.SIZE } := rfl
  have hfinal : runGets load metaOf (k0 :: rest) PageCache.new
      = { pages := (((k0 :: rest).reverse ++ []).take PageCache.SIZE).map (pairOf load metaOf), cap := PageCache.SIZE } := by
    rw [hempty]
    exact runGets_fresh load metaOf PageCache.SIZE hC (k0 :: rest) []
      (by intro k _; simp) hnd
  have hpages : ((k0 :: rest).reverse ++ []).take PageCache.SIZE = rest.reverse := by
    rw [List.append_nil, List.reverse_cons]
    have hlr : rest.reverse.length = PageCache.SIZE := by
      rw [List.length_reverse, hlen]
    rw [← hlr, List.take_left]
  rw [hpages] at hfinal
  refine ⟨rfl, ?p1, ?p2, ?p3⟩
  case p1 =>
    rw [hfinal]
    have hk0 : k0 ∉ rest.reverse := fun hm =>
      (List.nodup_cons.mp hnd).1 (List.mem_reverse.mp hm)
    have hmiss : lruGet (rest.reverse.map (pairOf load metaOf)) k0 = none :=
      lruGet_map_pair_none load metaOf _ k0 hk0
    unfold PageCache.get
    rw [hmiss]
  case p2 =>
    intro k hk
    rw [hfinal]
    have hmem : k ∈ rest.reverse := List.mem_reverse.mpr hk
    have hhit := lruGet_map_pair_mem load metaOf rest.reverse k hmem
    unfold PageCache.get
    rw [hhit]
  case p3 =>
    intro n
    have hndn : ((k0 :: rest).take n).Nodup := hnd.sublist (List.take_sublist n _)
    have h := runGets_fresh load metaOf PageCache.SIZE hC ((k0 :: rest).take n) []
      (by intro k _; simp) hndn
    rw [hempty, h, List.length_map, List.length_take]
    omega

set_option maxRecDepth 8000 in
set_option maxHeartbeats 1000000 in
/-- Witness for C6: 257 distinct keys `(0, 0), (0, 1), ..., (0, 256)` accessed
    in order from the empty cache; the subsequent get for `(0, 0)` performs a
    load while the get for the still-cached `(0, 5)` does not. -/
theorem C6_lru_eviction_witness :
    (PageCache.get (fun _ => PageData.from_ints [])
      (runGets (fun _ => PageData.from_ints [])
        (fun _ => { id := 0, offset := 0, path := 0, size := 0
                  , stats := PageStats.default, typ := Ty.int })
        ((0, 0) :: (List.range PageCache.SIZE).map (fun i => ((0 : Nat), i + 1)))
        PageCache.new)
      (0, 0) { id := 0, offset := 0, path := 0, size := 0
             , stats := PageStats.default, typ := Ty.int }).2.1 = true ∧
    (PageCache.get (fun _ => PageData.from_ints [])
      (runGets (fun _ => PageData.from_ints [])
        (fun _ => { id := 0, offset := 0, path := 0, size := 0
                  , stats := PageStats.default, typ := Ty.int })
        ((0, 0) :: (List.range PageCache.SIZE).map (fun i => ((0 : Nat), i + 1)))
        PageCache.new)
      (0, 5) { id := 0, offset := 0, path := 0, size := 0
             , stats := PageStats.default, typ := Ty.int }).2.1 = false ∧
    PageCache.new.cap = 256 := by
  have hinj : Function.Injective (fun i : Nat => ((0 : Nat), i + 1)) := by
    intro a b hab
    have h2 := congrArg Prod.snd hab
    simpa using h2
  have hnd : (((0 : Nat), (0 : Nat)) ::
      (List.range PageCache.SIZE).map (fun i => ((0 : Nat), i + 1))).Nodup := by
    refine List.nodup_cons.mpr ⟨?h1, (List.nodup_range _).map hinj⟩
    intro hmem
    obtain ⟨i, _, he⟩ := List.mem_map.mp hmem
    have h2 := congrArg Prod.snd he
    simp at h2
  have h := C6_lru_eviction (fun _ => PageData.from_ints [])
    (fun _ => { id := 0, offset := 0, path := 0, size := 0
              , stats := PageStats.default, typ := Ty.int })
    (0, 0) ((List.range PageCache.SIZE).map (fun i => ((0 : Nat), i + 1)))
    hnd (by simp)
  refine ⟨h.2.1, h.2.2.1 (0, 5) ?hm, h.1⟩
  exact List.mem_map.mpr ⟨4, List.mem_range.mpr (by norm_num [PageCache.SIZE]), rfl⟩

theorem mem_lruTouch (l : List (PageKey × Page)) (k : PageKey)
    (e : PageKey × Page) (he : e ∈ lruTouch l k) : e ∈ l := by
  unfold lruTouch at he
  cases hf : l.find? (fun x => x.1 = k) with
  | none =>
    rw [hf] at he
    exact he
  | some f =>
    rw [hf] at he
    rcases List.mem_cons.mp he with h | h
    · exact h ▸ List.mem_of_find?_eq_some hf
    · exact (List.mem_filter.mp h).1

theorem mem_lruPut (l : List (PageKey × Page)) (cap : Nat) (k : PageKey)
    (p : Page) (e : PageKey × Page) (he : e ∈ lruPut l cap k p) :
    e = (k, p) ∨ e ∈ l := by
  unfold lruPut at he
  by_cases hc : lruContains l k = true
  · rw [if_pos hc] at he
    rcases List.mem_cons.mp he with h | h
    · exact Or.inl h
    · exact Or.inr (List.mem_filter.mp h).1
  · rw [if_neg hc] at he
    by_cases hlen : l.length < cap
    · rw [if_pos hlen] at he
      rcases List.mem_cons.mp he with h | h
      · exact Or.inl h
      · exact Or.inr h
    · rw [if_neg hlen] at he
      rcases List.mem_cons.mp he with h | h
      · exact Or.inl h
      · exact Or.inr ((List.dropLast_sublist l).subset h)

/-- On a coherent cache, PageCache::get for a collection key returns exactly
    the loader's page for the meta at that index, and preserves coherence
    (both on a hit, which only reorders entries, and on a miss, which inserts
    the freshly loaded page). -/
theorem PageCache.get_coherent (load : PageMeta → PageData) (c : Collection)
    (cache : PageCache) (pidx : Nat) (m : PageMeta)
    (hcoh : Coherent load c cache) (hm : c.page_metas.get? pidx = some m) :
    (PageCache.get load cache (c.id, pidx) m).1 = { data := load m, meta := m } ∧
    Coherent load c (PageCache.get load cache (c.id, pidx) m).2.2 := by
  unfold PageCache.get
  cases hg : lruGet cache.pages (c.id, pidx) with
  | none =>
    constructor
    · rfl
    · intro e he hid
      have he2 : e ∈ lruPut cache.pages cache.cap (c.id, pidx)
          ({ data := load m, meta := m } : Page) := he
      rcases mem_lruPut cache.pages cache.cap (c.id, pidx)
          ({ data := load m, meta := m } : Page) e he2 with h | h
      · rw [h]
        exact ⟨m, hm, rfl⟩
      · exact hcoh e h hid
  | some p =>
    have hmem : ((c.id, pidx), p) ∈ cache.pages := by
      unfold lruGet at hg
      cases hf : cache.pages.find? (fun e => e.1 = (c.id, pidx)) with
      | none =>
        rw [hf] at hg
        simp at hg
      | some f =>
        rw [hf] at hg
        simp only [Option.map_some'] at hg
        have hf1 : f.1 = (c.id, pidx) := by simpa using List.find?_some hf
        have hfe : f = ((c.id, pidx), p) := Prod.ext hf1 (by simpa using hg)
        exact hfe ▸ List.mem_of_find?_eq_some hf
    obtain ⟨m2, hm2, hp⟩ := hcoh _ hmem rfl
    have hmm : m2 = m := by
      rw [hm] at hm2
      exact (Option.some_inj.mp hm2).symm
    subst hmm
    have hp2 : p = ({ data := load m2, meta := m2 } : Page) := hp
    constructor
    · exact hp2
    · intro e he hid
      have he2 : e ∈ lruTouch cache.pages (c.id, pidx) := he
      exact hcoh e (mem_lruTouch cache.pages (c.id, pidx) e he2) hid

/-- The find_page scan on a coherent cache computes the pure scan result
    (page loaded for the covering meta, start offset `page_index * size`) and
    preserves coherence. -/
theorem findFrom_spec (load : PageMeta → PageData) (c : Collection) (idx : Nat) :
    ∀ (rest : List PageMeta) (k : Nat) (cache : PageCache),
    Coherent load c cache → c.page_metas.drop k = rest →
    (findFrom load cache c.id idx k rest).1
      = (findMetaFrom idx k rest).map
          (fun km => ({ data := load km.2, meta := km.2 }, km.1 * km.2.size)) ∧
    Coherent load c (findFrom load cache c.id idx k rest).2 := by
  intro rest
  induction rest with
  | nil =>
    intro k cache hcoh _
    exact ⟨rfl, hcoh⟩
  | cons m rest ih =>
    intro k cache hcoh hdrop
    have hm : c.page_metas.get? k = some m := by
      have h1 : (c.page_metas.drop k).get? 0 = some m := by
        rw [hdrop]
        rfl
      have h2 := List.get?_drop c.page_metas k 0
      rw [h1] at h2
      simpa using h2.symm
    have hdrop2 : c.page_metas.drop (k + 1) = rest := by
      rw [← List.tail_drop, hdrop]
      rfl
    unfold findFrom findMetaFrom
    by_cases hcov : k * m.size ≤ idx ∧ idx < k * m.size + m.size
    · rw [if_pos hcov, if_pos hcov]
      have hget := PageCache.get_coherent load c cache k m hcoh hm
      refine ⟨?e1, hget.2⟩
      rw [hget.1]
      rfl
    · rw [if_neg hcov, if_neg hcov]
      exact ih (k + 1) cache hcoh hdrop2

theorem find_page_spec (load : PageMeta → PageData) (c : Collection)
    (cache : PageCache) (idx : Nat) (hcoh : Coherent load c cache) :
    (Collection.find_page load c cache idx).1
      = (c.findMeta idx).map
          (fun km => ({ data := load km.2, meta := km.2 }, km.1 * km.2.size)) ∧
    Coherent load c (Collection.find_page load c cache idx).2 :=
  findFrom_spec load c idx c.page_metas 0 cache hcoh rfl

/-- On a coherent cache, each collection getter computes its pure
    (cache-independent) value and preserves coherence. -/
theorem getWith_spec {α : Type} (pget : Page → Nat → Option (Option α))
    (load : PageMeta → PageData) (c : Collection) (cache : PageCache) (idx : Nat)
    (hcoh : Coherent load c cache) :
    (Collection.getWith pget load c cache idx).1 = Collection.atWith pget load c idx ∧
    Coherent load c (Collection.getWith pget load c cache idx).2 := by
  obtain ⟨h1, h2⟩ := find_page_spec load c cache idx hcoh
  unfold Collection.getWith
  rcases hres : Collection.find_page load c cache idx with ⟨r, cache2⟩
  rw [hres] at h1 h2
  simp only [] at h1 h2
  unfold Collection.atWith
  cases hfm : c.findMeta idx with
  | none =>
    rw [hfm] at h1
    simp only [Option.map_none'] at h1
    subst h1
    exact ⟨rfl, h2⟩
  | some km =>
    rw [hfm] at h1
    simp only [Option.map_some'] at h1
    subst h1
    exact ⟨rfl, h2⟩

/-- Facts established by a successful Collection::new: the metadata list,
    size, id, and the single shared page type. -/
theorem Collection.new_eq (idn : Nat) (metas : List PageMeta) (c : Collection)
    (h : Collection.new idn metas = some c) :
    c.page_metas = metas ∧ c.size = (metas.map (fun m => m.size)).sum ∧
    c.id = idn ∧ (∀ m ∈ metas, m.typ = c.typ) := by
  unfold Collection.new at h
  cases hd : (metas.map (fun m => m.typ)).dedup with
  | nil =>
    rw [hd] at h
    simp at h
  | cons t rest =>
    cases rest with
    | cons t2 rest2 =>
      rw [hd] at h
      simp at h
    | nil =>
      rw [hd] at h
      simp only [Option.some_inj] at h
      subst h
      refine ⟨rfl, rfl, rfl, ?ptyp⟩
      intro m hm
      have h1 : m.typ ∈ (metas.map (fun m => m.typ)).dedup :=
        List.mem_dedup.mpr (List.mem_map.mpr ⟨m, hm, rfl⟩)
      rw [hd] at h1
      simpa using h1

theorem sum_sizes_uniform (metas : List PageMeta) (s : Nat)
    (hs : ∀ m ∈ metas, m.size = s) :
    (metas.map (fun m => m.size)).sum = metas.length * s := by
  induction metas with
  | nil => simp
  | cons m t ih =>
    rw [List.map_cons, List.sum_cons, hs m (by simp),
      ih (fun m2 h2 => hs m2 (by simp [h2])), List.length_cons, Nat.succ_mul]
    omega

/-- Pure uniform-size index resolution: with every page of size `s`, the scan
    starting at page `k` (with `k*s ≤ idx`) finds page `idx / s`. -/
theorem findMetaFrom_uniform (idx s : Nat) :
    ∀ (rest : List PageMeta) (k : Nat),
    (∀ m ∈ rest, m.size = s) → k * s ≤ idx → idx < (k + rest.length) * s →
    ∃ m, rest.get? (idx / s - k) = some m ∧
      findMetaFrom idx k rest = some (idx / s, m) := by
  intro rest
  induction rest with
  | nil =>
    intro k _ hlo hhi
    simp only [List.length_nil, Nat.add_zero] at hhi
    omega
  | cons m rest ih =>
    intro k hs hlo hhi
    have hms : m.size = s := hs m (by simp)
    have hs0 : 0 < s := by
      rcases Nat.eq_zero_or_pos s with h0 | h0
      · rw [h0, Nat.mul_zero] at hhi
        omega
      · exact h0
    unfold findMetaFrom
    rw [hms]
    by_cases hcov : k * s ≤ idx ∧ idx < k * s + s
    · rw [if_pos hcov]
      have hdiv : idx / s = k :=
        Nat.div_eq_of_lt_le hcov.1 (by rw [Nat.succ_mul]; exact hcov.2)
      refine ⟨m, ?g1, ?g2⟩
      case g1 =>
        rw [hdiv, Nat.sub_self]
        rfl
      case g2 =>
        rw [hdiv]
    · rw [if_neg hcov]
      have hnext : (k + 1) * s ≤ idx := by
        rw [Nat.succ_mul]
        by_contra hlt
        exact hcov ⟨hlo, by omega⟩
      have hhi2 : idx < ((k + 1) + rest.length) * s := by
        have he : ((k + 1) + rest.length) = k + (m :: rest).length := by
          rw [List.length_cons]
          omega
        rw [he]
        exact hhi
      obtain ⟨m2, hg1, hg2⟩ := ih (k + 1)
        (fun m2 h2 => hs m2 (by simp [h2])) hnext hhi2
      refine ⟨m2, ?g1, hg2⟩
      case g1 =>
        have hk1 : k + 1 ≤ idx / s := (Nat.le_div_iff_mul_le hs0).mpr hnext
        have he2 : idx / s - k = (idx / s - (k + 1)) + 1 := by omega
        rw [he2]
        exact hg1

/-- Pure uniform-size index resolution past the end: with every page of size
    `s` and `idx` at or past the covered range, the scan finds no page. -/
theorem findMetaFrom_uniform_none (idx s : Nat) :
    ∀ (rest : List PageMeta) (k : Nat),
    (∀ m ∈ rest, m.size = s) → (k + rest.length) * s ≤ idx →
    findMetaFrom idx k rest = none := by
  intro rest
  induction rest with
  | nil => intro k _ _; rfl
  | cons m rest ih =>
    intro k hs hle
    have hms : m.size = s := hs m (by simp)
    unfold findMetaFrom
    rw [hms]
    have h1 : (k + 1) * s ≤ (k + (rest.length + 1)) * s :=
      Nat.mul_le_mul_right s (by omega)
    have h2 : (k + 1) * s = k * s + s := Nat.succ_mul k s
    have hcle : (k + (rest.length + 1)) * s ≤ idx := by simpa using hle
    rw [if_neg (by omega)]
    have he : (k + 1) + rest.length = k + (rest.length + 1) := by omega
    exact ih (k + 1) (fun m2 h2 => hs m2 (by simp [h2])) (by rw [he]; exact hcle)

/-- Element lookup in the concatenation of equal-length lists: position `i`
    lands in list `i / s` at offset `i % s`. -/
theorem flatten_get?_uniform {α : Type} (s : Nat) (hs : 0 < s) :
    ∀ (ls : List (List α)) (i : Nat), (∀ x ∈ ls, x.length = s) →
    i < ls.length * s →
    ls.flatten.get? i = (ls.get? (i / s)).bind (fun row => row.get? (i % s)) := by
  intro ls
  induction ls with
  | nil =>
    intro i _ hi
    simp only [List.length_nil] at hi
    omega
  | cons x t ih =>
    intro i hlen hi
    have hx : x.length = s := hlen x (by simp)
    rw [List.flatten_cons]
    by_cases his : i < s
    · rw [List.get?_append (by omega : i < x.length)]
      rw [Nat.div_eq_of_lt his, Nat.mod_eq_of_lt his]
      rfl
    · have hge : s ≤ i := by omega
      rw [List.get?_append_right (by omega : x.length ≤ i), hx]
      have hd : i / s = (i - s) / s + 1 := Nat.div_eq_sub_div hs hge
      have hm : i % s = (i - s) % s := Nat.mod_eq_sub_mod hge
      have hbound : i - s < t.length * s := by
        rw [List.length_cons, Nat.succ_mul] at hi
        omega
      rw [ih (i - s) (fun y hy => hlen y (by simp [hy])) hbound, hd, hm]
      rfl

/-- C3: in a collection built from pages of one equal declared size `s`,
    `find_page` resolves global index `i` to page `i / s` (the page holding
    position `i` of the concatenation) with start offset `(i / s) * s`, that
    offset equals the prefix sum of the earlier page sizes, and every typed
    getter returns exactly position `i` of the concatenation, in page-index
    order, of the pages' rows. -/
theorem C3_collection_addressing (load : PageMeta → PageData) (idn s : Nat)
    (metas : List PageMeta) (c : Collection) (cache : PageCache)
    (hnew : Collection.new idn metas = some c)
    (hs : ∀ m ∈ metas, m.size = s)
    (hcoh : Coherent load c cache) :
    (∀ i, i < c.size → ∃ m, c.page_metas.get? (i / s) = some m ∧
       (Collection.find_page load c cache i).1
         = some ({ data := load m, meta := m }, (i / s) * s) ∧
       (i / s) * s = ((c.page_metas.take (i / s)).map (fun m2 => m2.size)).sum) ∧
    (∀ i, i < c.size → (Collection.rowsWith Page.get_bool load c).get? i
       = some ((Collection.get_bool load c cache i).1)) ∧
    (∀ i, i < c.size → (Collection.rowsWith Page.get_int load c).get? i
       = some ((Collection.get_int load c cache i).1)) ∧
    (∀ i, i < c.size → (Collection.rowsWith Page.get_float load c).get? i
       = some ((Collection.get_float load c cache i).1)) ∧
    (∀ i, i < c.size → (Collection.rowsWith Page.get_string load c).get? i
       = some ((Collection.get_string load c cache i).1)) := by
  obtain ⟨hpm, hsz, hid, htyp⟩ := Collection.new_eq idn metas c hnew
  have hs2 : ∀ m ∈ c.page_metas, m.size = s := by
    rw [hpm]
    exact hs
  have hlen : c.size = c.page_metas.length * s := by
    rw [hsz, sum_sizes_uniform metas s hs, hpm]
  have hmain : ∀ i, i < c.size → ∃ m, c.page_metas.get? (i / s) = some m ∧
      c.findMeta i = some (i / s, m) ∧ m.size = s := by
    intro i hi
    have hi2 : i < (0 + c.page_metas.length) * s := by
      rw [Nat.zero_add]
      omega
    obtain ⟨m, hg1, hg2⟩ := findMetaFrom_uniform i s c.page_metas 0 hs2
      (by simp) hi2
    rw [Nat.sub_zero] at hg1
    exact ⟨m, hg1, hg2, hs2 m (List.get?_mem hg1)⟩
  have hspos : ∀ i, i < c.size → 0 < s := by
    intro i hi
    rcases Nat.eq_zero_or_pos s with h0 | h0
    · rw [h0, Nat.mul_zero] at hlen
      omega
    · exact h0
  have hrows : ∀ (α : Type) (pget : Page → Nat → Option (Option α)) (i : Nat),
      i < c.size →
      (Collection.rowsWith pget load c).get? i
        = some ((Collection.getWith pget load c cache i).1) := by
    intro α pget i hi
    have hs0 : 0 < s := hspos i hi
    obtain ⟨m, hm, hfm, hmsz⟩ := hmain i hi
    have hL : ∀ x ∈ c.page_metas.map (pageRows pget load), x.length = s := by
      intro x hx
      obtain ⟨m2, hm2, he⟩ := List.mem_map.mp hx
      rw [← he]
      show (pageRows pget load m2).length = s
      rw [pageRows, List.length_map, List.length_range]
      exact hs2 m2 hm2
    have hflat := flatten_get?_uniform s hs0 (c.page_metas.map (pageRows pget load))
      i hL (by rw [List.length_map]; omega)
    rw [Collection.rowsWith, hflat, List.get?_map, hm]
    simp only [Option.map_some']
    have hmod : i % s < s := Nat.mod_lt i hs0
    have hrow : (pageRows pget load m).get? (i % s)
        = some (pget { data := load m, meta := m } (i % s)) := by
      rw [pageRows, List.get?_map, List.get?_range (by rw [hmsz]; exact hmod)]
      rfl
    have hlocal : i - i / s * m.size = i % s := by
      rw [hmsz]
      calc i - i / s * s = i - s * (i / s) := by rw [Nat.mul_comm]
        _ = i % s := (Nat.mod_def i s).symm
    rw [(getWith_spec pget load c cache i hcoh).1, Collection.atWith, hfm]
    have hlhs : (some (pageRows pget load m)).bind (fun row => row.get? (i % s))
        = (pageRows pget load m).get? (i % s) := rfl
    rw [hlhs, hrow]
    show some (pget { data := load m, meta := m } (i % s))
      = some (pget { data := load m, meta := m } (i - i / s * m.size))
    rw [hlocal]
  refine ⟨?c1, fun i hi => hrows Bool Page.get_bool i hi,
    fun i hi => hrows Int Page.get_int i hi,
    fun i hi => hrows Nat Page.get_float i hi,
    fun i hi => hrows (List Nat) Page.get_string i hi⟩
  intro i hi
  have hs0 : 0 < s := hspos i hi
  obtain ⟨m, hm, hfm, hmsz⟩ := hmain i hi
  refine ⟨m, hm, ?f2, ?f3⟩
  case f2 =>
    have h1 := (find_page_spec load c cache i hcoh).1
    rw [hfm] at h1
    simp only [Option.map_some'] at h1
    rw [h1, hmsz]
  case f3 =>
    have hdiv_lt : i / s < c.page_metas.length :=
      (Nat.div_lt_iff_lt_mul hs0).mpr (by omega)
    have htake : ∀ m2 ∈ c.page_metas.take (i / s), m2.size = s :=
      fun m2 h2 => hs2 m2 (List.take_subset _ _ h2)
    rw [sum_sizes_uniform _ s htake, List.length_take]
    have hmin : min (i / s) c.page_metas.length = i / s := by omega
    rw [hmin]

/-- Example page meta for the spec's `[3,3]` Int collection (first page). -/
def exMeta1 : PageMeta :=
  { id := 1, offset := 0, path := 101, size := 3, stats := PageStats.default
  , typ := Ty.int }

/-- Example page meta for the spec's `[3,3]` Int collection (second page). -/
def exMeta2 : PageMeta :=
  { id := 2, offset := 3, path := 102, size := 3, stats := PageStats.default
  , typ := Ty.int }

/-- Example loader: the file system holding the spec's example pages
    `[Some 2, None, Some 4]` and `[None, Some 6, None]`. -/
def exLoad : PageMeta → PageData := fun m =>
  if m.path = 101 then PageData.from_ints [some 2, none, some 4]
  else PageData.from_ints [none, some 6, none]

/-- The spec's example collection of two Int pages of size 3. -/
def exColl : Collection :=
  { id := 0, page_metas := [exMeta1, exMeta2], size := 6, typ := Ty.int }

/-- Witness for C3: in the `[3,3]` Int example, index 2 resolves to the first
    page with start offset 0, index 3 to the second page with start offset 3,
    the concatenated rows agree with the getter at index 4, and that value is
    `Some 6` — position 4 of `[2, None, 4, None, 6, None]`. -/
theorem C3_collection_addressing_witness :
    (Collection.find_page exLoad exColl PageCache.new 2).1
      = some ({ data := PageData.from_ints [some 2, none, some 4]
              , meta := exMeta1 }, 0) ∧
    (Collection.find_page exLoad exColl PageCache.new 3).1
      = some ({ data := PageData.from_ints [none, some 6, none]
              , meta := exMeta2 }, 3) ∧
    (Collection.rowsWith Page.get_int exLoad exColl).get? 4
      = some ((Collection.get_int exLoad exColl PageCache.new 4).1) ∧
    (Collection.get_int exLoad exColl PageCache.new 4).1 = some (some 6) := by
  have h := C3_collection_addressing exLoad 0 3 [exMeta1, exMeta2] exColl
    PageCache.new (by decide) (by decide)
    (fun e he _ => absurd he (List.not_mem_nil e))
  refine ⟨?w1, ?w2, h.2.2.1 4 (by decide), by decide⟩
  case w1 =>
    obtain ⟨m, hm, hfp, _⟩ := h.1 2 (by decide)
    have hL : ([exMeta1, exMeta2] : List PageMeta).get? (2 / 3) = some exMeta1 := by
      decide
    have hmm : m = exMeta1 := (Option.some_inj.mp (hL.symm.trans hm)).symm
    subst hmm
    exact hfp.trans (by decide)
  case w2 =>
    obtain ⟨m, hm, hfp, _⟩ := h.1 3 (by decide)
    have hL : ([exMeta1, exMeta2] : List PageMeta).get? (3 / 3) = some exMeta2 := by
      decide
    have hmm : m = exMeta2 := (Option.some_inj.mp (hL.symm.trans hm)).symm
    subst hmm
    exact hfp.trans (by decide)

/-- C4 counterexample: out-of-range access does not fail with any error — in
    the `[3,3]` example, `get_int` at index 6 (= size) returns the ordinary
    value `None`, exactly the result produced at index 3 (an in-range null
    row), so out-of-range reads are silently indistinguishable from nulls
    rather than failing with IndexOutOfRange. -/
theorem C4_out_of_range_counterexample :
    (Collection.get_int exLoad exColl PageCache.new 6).1 = some none ∧
    (Collection.get_int exLoad exColl PageCache.new 3).1 = some none := by
  decide

/-- C4 amended: in a collection of uniform page size `s`, `find_page` at
    `size` and `size + 1` resolves no page and every typed getter silently
    returns the plain value `None` there (no IndexOutOfRange failure exists in
    the code); for a non-empty collection, index `size - 1` does resolve its
    final covering page. -/
theorem C4_out_of_range (load : PageMeta → PageData) (idn s : Nat)
    (metas : List PageMeta) (c : Collection) (cache : PageCache)
    (hnew : Collection.new idn metas = some c)
    (hs : ∀ m ∈ metas, m.size = s)
    (hcoh : Coherent load c cache) :
    (Collection.find_page load c cache c.size).1 = none ∧
    (Collection.find_page load c cache (c.size + 1)).1 = none ∧
    (Collection.get_int load c cache c.size).1 = some none ∧
    (Collection.get_bool load c cache c.size).1 = some none ∧
    (Collection.get_float load c cache c.size).1 = some none ∧
    (Collection.get_string load c cache c.size).1 = some none ∧
    (Collection.get_int load c cache (c.size + 1)).1 = some none ∧
    (0 < c.size → ∃ m, c.page_metas.get? ((c.size - 1) / s) = some m ∧
      (Collection.find_page load c cache (c.size - 1)).1
        = some ({ data := load m, meta := m }, ((c.size - 1) / s) * s)) := by
  obtain ⟨hpm, hsz, hid, htyp⟩ := Collection.new_eq idn metas c hnew
  have hs2 : ∀ m ∈ c.page_metas, m.size = s := by
    rw [hpm]
    exact hs
  have hlen : c.size = c.page_metas.length * s := by
    rw [hsz, sum_sizes_uniform metas s hs, hpm]
  have hnone : ∀ j, c.size ≤ j → (Collection.find_page load c cache j).1 = none := by
    intro j hj
    have h1 := (find_page_spec load c cache j hcoh).1
    have h2 : c.findMeta j = none :=
      findMetaFrom_uniform_none j s c.page_metas 0 hs2 (by rw [Nat.zero_add]; omega)
    rw [h2] at h1
    simpa using h1
  have hget : ∀ (α : Type) (pget : Page → Nat → Option (Option α)) (j : Nat),
      c.size ≤ j → (Collection.getWith pget load c cache j).1 = some none := by
    intro α pget j hj
    rw [(getWith_spec pget load c cache j hcoh).1, Collection.atWith]
    have h2 : c.findMeta j = none :=
      findMetaFrom_uniform_none j s c.page_metas 0 hs2 (by rw [Nat.zero_add]; omega)
    rw [h2]
  refine ⟨hnone _ le_rfl, hnone _ (by omega), hget Int Page.get_int _ le_rfl,
    hget Bool Page.get_bool _ le_rfl, hget Nat Page.get_float _ le_rfl,
    hget (List Nat) Page.get_string _ le_rfl, hget Int Page.get_int _ (by omega),
    ?last⟩
  intro hpos
  have hi2 : c.size - 1 < (0 + c.page_metas.length) * s := by
    rw [Nat.zero_add]
    omega
  obtain ⟨m, hg1, hg2⟩ := findMetaFrom_uniform (c.size - 1) s c.page_metas 0 hs2
    (by simp) hi2
  rw [Nat.sub_zero] at hg1
  have hg3 : c.findMeta (c.size - 1) = some ((c.size - 1) / s, m) := hg2
  have h1 := (find_page_spec load c cache (c.size - 1) hcoh).1
  rw [hg3] at h1
  simp only [Option.map_some'] at h1
  refine ⟨m, hg1, ?ff⟩
  rw [h1, hs2 m (List.get?_mem hg1)]

/-- Witness for C4: in the `[3,3]` example, `find_page` at 6 resolves nothing,
    `get_int` at 7 returns `None`, and index 5 resolves the second page at
    start offset 3. -/
theorem C4_out_of_range_witness :
    (Collection.find_page exLoad exColl PageCache.new 6).1 = none ∧
    (Collection.get_int exLoad exColl PageCache.new 7).1 = some none ∧
    (Collection.find_page exLoad exColl PageCache.new 5).1
      = some ({ data := PageData.from_ints [none, some 6, none]
              , meta := exMeta2 }, 3) := by
  have h := C4_out_of_range exLoad 0 3 [exMeta1, exMeta2] exColl PageCache.new
    (by decide) (by decide) (fun e he _ => absurd he (List.not_mem_nil e))
  refine ⟨h.1, h.2.2.2.2.2.2.1, ?w3⟩
  obtain ⟨m, hm, hfp⟩ := h.2.2.2.2.2.2.2 (by decide)
  have hL : ([exMeta1, exMeta2] : List PageMeta).get? ((6 - 1) / 3) = some exMeta2 := by
    decide
  have hmm : m = exMeta2 := (Option.some_inj.mp (hL.symm.trans hm)).symm
  subst hmm
  exact hfp.trans (by decide)

theorem nextWith_done {α : Type}
    (get1 : PageCache → Nat → Option (Option α) × PageCache) (size : Nat)
    (it : CollectionIter) (cache : PageCache) (h : it.idx = size) :
    CollectionIter.nextWith get1 size it cache = (some none, it, cache) := by
  unfold CollectionIter.nextWith
  rw [if_pos h]

theorem nextWith_step {α : Type}
    (get1 : PageCache → Nat → Option (Option α) × PageCache) (size : Nat)
    (it : CollectionIter) (cache : PageCache) (v : Option α)
    (h : ¬ it.idx = size) (hv : (get1 cache it.idx).1 = some v) :
    CollectionIter.nextWith get1 size it cache
      = (some (some v), { idx := it.idx + 1 }, (get1 cache it.idx).2) := by
  unfold CollectionIter.nextWith
  rw [if_neg h]
  show (match (get1 cache it.idx).1 with
    | none => (none, it, (get1 cache it.idx).2)
    | some v => (some (some v), ({ idx := it.idx + 1 } : CollectionIter),
        (get1 cache it.idx).2)) = _
  rw [hv]

theorem runWith_fst_succ {α : Type}
    (get1 : PageCache → Nat → Option (Option α) × PageCache) (size n : Nat)
    (it : CollectionIter) (cache : PageCache) :
    (runWith get1 size (n + 1) it cache).1
      = (CollectionIter.nextWith get1 size it cache).1 ::
        (runWith get1 size n (CollectionIter.nextWith get1 size it cache).2.1
          (CollectionIter.nextWith get1 size it cache).2.2).1 := rfl

/-- Driving the iterator: under an invariant making the getter compute a pure
    per-index value, running `k + 1` steps from cursor `idx` with
    `idx + k = size` yields the values at `idx, idx+1, ...` followed by the
    exhaustion signal. -/
theorem runWith_spec {α : Type}
    (get1 : PageCache → Nat → Option (Option α) × PageCache)
    (at1 : Nat → Option (Option α)) (Inv : PageCache → Prop) (size : Nat)
    (hg : ∀ cache i, Inv cache → (get1 cache i).1 = at1 i ∧ Inv (get1 cache i).2)
    (hok : ∀ i, i < size → (at1 i).isSome = true) :
    ∀ (k idx : Nat) (cache : PageCache), Inv cache → idx + k = size →
    (runWith get1 size (k + 1) ({ idx := idx } : CollectionIter) cache).1
      = ((List.range k).map (fun j => some (at1 (idx + j)))) ++ [some none] := by
  intro k
  induction k with
  | zero =>
    intro idx cache hInv hsz
    rw [runWith_fst_succ, nextWith_done get1 size _ cache (by simpa using hsz)]
    rfl
  | succ k ih =>
    intro idx cache hInv hsz
    have hidx : ¬ ({ idx := idx } : CollectionIter).idx = size := by
      show ¬ idx = size
      omega
    have hsome := hok idx (by omega)
    obtain ⟨v, hv⟩ := Option.isSome_iff_exists.mp hsome
    have hg1 := hg cache idx hInv
    have hstep := nextWith_step get1 size ({ idx := idx } : CollectionIter) cache v
      hidx (by rw [hg1.1]; exact hv)
    rw [runWith_fst_succ, hstep]
    rw [ih (idx + 1) ((get1 cache idx).2) hg1.2 (by omega)]
    rw [List.range_succ_eq_map, List.map_cons, List.map_map]
    have hhead : (some (some v) : Option (Option (Option α)))
        = some (at1 (idx + 0)) := by
      rw [Nat.add_zero, hv]
    have htail : (List.range k).map (fun j => some (at1 (idx + 1 + j)))
        = (List.range k).map ((fun j => some (at1 (idx + j))) ∘ Nat.succ) := by
      apply List.map_congr_left
      intro j _
      show some (at1 (idx + 1 + j)) = some (at1 (idx + (j + 1)))
      have he : idx + 1 + j = idx + (j + 1) := by omega
      rw [he]
    rw [hhead, htail]
    rfl

/-- C9: a freshly constructed full-scan iterator starts at cursor 0; on a
    coherent cache each typed getter computes its pure per-index value, and
    when every index decodes without panic the iterator yields exactly the
    sequence of getter values for indices `0..size` in increasing order
    followed by the exhaustion signal (`some none`). Constructing a new
    iterator always restarts at 0. -/
theorem C9_iteration_matches_random_access (load : PageMeta → PageData)
    (c : Collection) (cache : PageCache) (hcoh : Coherent load c cache) :
    CollectionIter.new.idx = 0 ∧
    (∀ i (cache2 : PageCache), Coherent load c cache2 →
      (Collection.get_bool load c cache2 i).1 = Collection.atBool load c i ∧
      (Collection.get_int load c cache2 i).1 = Collection.atInt load c i ∧
      (Collection.get_float load c cache2 i).1 = Collection.atFloat load c i ∧
      (Collection.get_string load c cache2 i).1 = Collection.atString load c i) ∧
    ((∀ i ∈ List.range c.size, (Collection.atBool load c i).isSome = true) →
      (runWith (Collection.get_bool load c) c.size (c.size + 1)
        CollectionIter.new cache).1
        = ((List.range c.size).map (fun i => some (Collection.atBool load c i)))
          ++ [some none]) ∧
    ((∀ i ∈ List.range c.size, (Collection.atInt load c i).isSome = true) →
      (runWith (Collection.get_int load c) c.size (c.size + 1)
        CollectionIter.new cache).1
        = ((List.range c.size).map (fun i => some (Collection.atInt load c i)))
          ++ [some none]) ∧
    ((∀ i ∈ List.range c.size, (Collection.atFloat load c i).isSome = true) →
      (runWith (Collection.get_float load c) c.size (c.size + 1)
        CollectionIter.new cache).1
        = ((List.range c.size).map (fun i => some (Collection.atFloat load c i)))
          ++ [some none]) ∧
    ((∀ i ∈ List.range c.size, (Collection.atString load c i).isSome = true) →
      (runWith (Collection.get_string load c) c.size (c.size + 1)
        CollectionIter.new cache).1
        = ((List.range c.size).map (fun i => some (Collection.atString load c i)))
          ++ [some none]) := by
  have hrunT : ∀ (α : Type) (pget : Page → Nat → Option (Option α)),
      (∀ i ∈ List.range c.size, (Collection.atWith pget load c i).isSome = true) →
      (runWith (Collection.getWith pget load c) c.size (c.size + 1)
        CollectionIter.new cache).1
        = ((List.range c.size).map (fun i => some (Collection.atWith pget load c i)))
          ++ [some none] := by
    intro α pget hok
    have h := runWith_spec (Collection.getWith pget load c)
      (Collection.atWith pget load c) (Coherent load c) c.size
      (fun cache2 i hInv => getWith_spec pget load c cache2 i hInv)
      (fun i hi => hok i (List.mem_range.mpr hi)) c.size 0 cache hcoh
      (Nat.zero_add _)
    have hmapeq : (List.range c.size).map
          (fun j => some (Collection.atWith pget load c (0 + j)))
        = (List.range c.size).map (fun j => some (Collection.atWith pget load c j)) :=
      List.map_congr_left (fun j _ => by rw [Nat.zero_add])
    rw [hmapeq] at h
    exact h
  refine ⟨rfl, ?geq, hrunT Bool Page.get_bool, hrunT Int Page.get_int,
    hrunT Nat Page.get_float, hrunT (List Nat) Page.get_string⟩
  intro i cache2 hcoh2
  exact ⟨(getWith_spec Page.get_bool load c cache2 i hcoh2).1,
    (getWith_spec Page.get_int load c cache2 i hcoh2).1,
    (getWith_spec Page.get_float load c cache2 i hcoh2).1,
    (getWith_spec Page.get_string load c cache2 i hcoh2).1⟩

/-- Witness for C9: driving the Int iterator over the `[3,3]` example from a
    fresh cursor yields exactly `[2, None, 4, None, 6, None]` (as getter
    values) followed by the exhaustion signal. -/
theorem C9_iteration_matches_random_access_witness :
    (runWith (Collection.get_int exLoad exColl) exColl.size (exColl.size + 1)
      CollectionIter.new PageCache.new).1
      = [some (some (some 2)), some (some none), some (some (some 4)),
         some (some none), some (some (some 6)), some (some none), some none] ∧
    CollectionIter.new.idx = 0 := by
  have h := C9_iteration_matches_random_access exLoad exColl PageCache.new
    (fun e he _ => absurd he (List.not_mem_nil e))
  exact ⟨(h.2.2.2.1 (by decide)).trans (by decide), h.1⟩

end Eadb
